import Mathlib

/-!
# Verification of the nhlgc playlist-resolution and decryption-parameter pipeline

This file is a shallow embedding, in Lean 4, of the core of the `nhlgc` Go
library (`gamecenter.go`, `types.go`): the playlist resolver
(`GetPlaylistsFromURL`, `GetMediaPlaylist`) and the decryption-parameter
builder (`GetStreamDecryptionParameters`), together with proofs about them.

Modelling conventions:

* The HTTP transport (`getResponseBody`) is an oracle parameter
  `fetch : String → Except NhlError (List Nat)`; a successful GET returns the
  response body as a list of bytes, a failure returns the error value that
  `getResponseBody` would have produced (for transport failures this is a
  `NetworkError` built by `newNetworkError`).
* The `m3u8` manifest parser is external; we embed its already-parsed output
  (`MasterPlaylist`, `MediaPlaylist`, the `Playlist` interface as a sum).
* Go strings are embedded as Lean `String`s; byte indexing of the Go code is
  modelled by character indexing (all the strings involved — URIs, quote and
  slash characters — are treated as ASCII, where the two coincide).
* Go `uint64` arithmetic is `Nat` arithmetic reduced `% 2 ^ 64` at the single
  addition the code performs; byte values are `Nat`s below 256.
* Go runtime faults (index out of range, slice bounds out of range), which the
  quote-stripping code can hit, are made explicit with `Except GoPanic`.
* Go loops are embedded as structural recursions; where the Go loop has no
  structurally decreasing argument, an explicit fuel argument is added and
  initialised at call sites with a value that provably exceeds the number of
  iterations the Go loop can perform, so the fuel-exhaustion branch is
  unreachable and the definitions compute by kernel reduction.
-/

/-- Bytes are modelled as natural numbers (meaningful values are `< 256`). -/
abbrev Byte := Nat

/-- The fields of `net/url.URL` that `gamecenter.go` reads and writes
(`Scheme`, `Host`, `Path`, `RawQuery`). -/
structure URL where
  scheme : String
  host : String
  path : String
  rawQuery : String
deriving DecidableEq, Repr

/-- Embedding of `m3u8.Key` (the fields `gamecenter.go` uses: `Method`,
`URI`, `IV`).  The `IV` field is a Go string; the code consumes it as its raw
bytes (`[]byte(segment.Key.IV)`), so it is embedded directly as a byte list. -/
structure MediaKey where
  method : String
  uri : String
  iv : List Byte
deriving DecidableEq, Repr

/-- Embedding of `m3u8.MediaSegment` (fields used: `URI`, `Key`); a nil `Key`
pointer is `none`. -/
structure MediaSegment where
  uri : String
  key : Option MediaKey
deriving DecidableEq, Repr

/-- Embedding of `m3u8.MediaPlaylist` (fields used: `SeqNo`, `Key`,
`Segments`).  `Segments` is a slice of pointers, so entries can be nil
placeholders: `Option MediaSegment`. -/
structure MediaPlaylist where
  seqNo : Nat
  key : Option MediaKey
  segments : List (Option MediaSegment)
deriving DecidableEq, Repr

/-- Embedding of one entry of `m3u8.MasterPlaylist.Variants` (fields used:
`URI`, `VariantParams.Bandwidth`). -/
structure Variant where
  uri : String
  bandwidth : Nat
deriving DecidableEq, Repr

/-- Embedding of `m3u8.MasterPlaylist` (field used: `Variants`). -/
structure MasterPlaylist where
  variants : List Variant
deriving DecidableEq, Repr

/-- The `m3u8.Playlist` interface value together with the list-type tag, as
the two cases `gamecenter.go` handles. -/
inductive Playlist where
  | master (pl : MasterPlaylist)
  | media (pl : MediaPlaylist)
deriving DecidableEq, Repr

/-- Embedding of `StreamPlaylist` from `gamecenter.go`. -/
structure StreamPlaylist where
  rawFile : String
  m3u8 : Playlist
  url : URL
  bandwidth : Nat
deriving DecidableEq, Repr

/-- Embedding of `DecryptionParameters` from `gamecenter.go`.  `Key` is a Go
byte slice whose zero value is nil: `none` embeds nil (never fetched), `some`
embeds a fetched response body. -/
structure DecryptionParameters where
  method : String
  sequence : Nat
  key : Option (List Byte)
  iv : List Byte
deriving DecidableEq, Repr

/-- The error values of `types.go`: `LogicError` (`newLogicError`) and
`NetworkError` (`newNetworkError`, carrying a status code and a location). -/
inductive NhlError where
  | logic (fnName msg : String)
  | network (fnName msg : String) (statusCode : Nat) (location : String)
deriving DecidableEq, Repr

deriving instance DecidableEq for Except

/-- `true` exactly on the `NetworkError` (transport-failure) shape. -/
def NhlError.isNetwork : NhlError → Bool
  | .network _ _ _ _ => true
  | .logic _ _ => false

/-- The error-message constant `errM3U8ExpectedMedia` of `gamecenter.go`. -/
def errM3U8ExpectedMedia : String := "Expected a media m3u8 playlist"

/-- Go runtime faults that the quote-stripping code in `gamecenter.go` can
raise: `URI[0]` on an empty string (index out of range) and `URI[1:0]` on a
one-character string (slice bounds out of range). -/
inductive GoPanic where
  | indexOutOfRange
  | sliceBounds
deriving DecidableEq, Repr

/-- The quote character, by code point (ASCII 34). -/
def quoteChar : Char := Char.ofNat 34

/-- Embedding of the key-URI sanitization idiom that appears four times in
`gamecenter.go` (lines 386-390, 395-399, 439-443, 448-452):

  if URI[0] == quote and URI[len(URI)-1] == quote { URI = URI[1:len(URI)-1] }

Byte accesses are embedded as character accesses (ASCII).  On an empty string
`URI[0]` faults; when both guard conditions hold on a one-character string the
slice `URI[1:0]` faults.  Both faults are returned as `GoPanic` values. -/
def stripKeyURI (s : String) : Except GoPanic String :=
  if s.length = 0 then .error .indexOutOfRange
  else if s.toList.headD quoteChar = quoteChar ∧ s.toList.getLastD quoteChar = quoteChar then
    if s.length = 1 then .error .sliceBounds
    else .ok (String.mk (s.toList.drop 1 |>.dropLast))
  else .ok s

/-- Sanitize a possibly-absent cipher block's key URI: nil keys pass through,
present keys get `stripKeyURI` applied to their `URI` field. -/
def stripSegmentKey : Option MediaKey → Except GoPanic (Option MediaKey)
  | none => .ok none
  | some k => do
    let u ← stripKeyURI k.uri
    return some { k with uri := u }

/-- The in-place cipher-metadata sanitization performed identically by the
media branch of `GetPlaylistsFromURL` (lines 386-399) and by
`GetMediaPlaylist` (lines 439-453): strip quotes from the document-level key's
URI, then from every non-nil segment's key's URI (nil segment placeholders are
skipped).  A Go runtime fault anywhere aborts the whole call. -/
def sanitizeSegmentEntry : Option MediaSegment → Except GoPanic (Option MediaSegment)
  | none => pure none
  | some seg => do
    let sk ← stripSegmentKey seg.key
    return some { seg with key := sk }

/-- The per-segment sanitization loop, in document order; the first Go fault
aborts the iteration. -/
def sanitizeSegments : List (Option MediaSegment) → Except GoPanic (List (Option MediaSegment))
  | [] => pure []
  | s :: rest => do
    let s' ← sanitizeSegmentEntry s
    let rest' ← sanitizeSegments rest
    return s' :: rest'

def sanitizeMediaPlaylist (pl : MediaPlaylist) : Except GoPanic MediaPlaylist := do
  let k ← stripSegmentKey pl.key
  let segs ← sanitizeSegments pl.segments
  return { pl with key := k, segments := segs }

/-- Embedding of `strings.LastIndex(s, "/")`-style search over characters:
the index of the last occurrence of `c`, or `-1` when absent (Go returns a
byte index; for ASCII data the two coincide). -/
def lastIndexC (c : Char) : List Char → Int
  | [] => -1
  | x :: xs =>
    let r := lastIndexC c xs
    if r ≥ 0 then r + 1 else if x = c then 0 else -1

/-- Embedding of the URL join that `GetPlaylistsFromURL` performs for both
master variants (lines 374-379) and media segments (lines 403-408):

  url.URL{ Scheme, Host, Path[:LastIndex(Path, "/")+1] + ref, RawQuery }

When the base path has no slash, `LastIndex` is `-1` and the kept prefix is
empty. -/
def joinURL (base : URL) (ref : String) : URL :=
  { scheme := base.scheme
    host := base.host
    path := String.mk (base.path.toList.take (lastIndexC '/' base.path.toList + 1).toNat) ++ ref
    rawQuery := base.rawQuery }

/-- The descriptor built for one master-playlist variant
(`gamecenter.go` lines 371-381). -/
def mkVariantStream (parsedURL : URL) (response : String) (pl : MasterPlaylist)
    (v : Variant) : StreamPlaylist :=
  { rawFile := response
    m3u8 := .master pl
    url := joinURL parsedURL v.uri
    bandwidth := v.bandwidth }

/-- The descriptor built for one media-playlist segment
(`gamecenter.go` lines 400-409); `Bandwidth` is left at its zero value. -/
def mkSegmentStream (parsedURL : URL) (response : String) (pl : MediaPlaylist)
    (seg : MediaSegment) : StreamPlaylist :=
  { rawFile := response
    m3u8 := .media pl
    url := joinURL parsedURL seg.uri
    bandwidth := 0 }

/-- `byte(x)`: truncation of a Go integer to one byte. -/
def toByte (x : Nat) : Byte := x % 256

/-- The IV synthesized by `GetStreamDecryptionParameters` (lines 487-498):
eight zero bytes followed by the shifted-and-masked bytes of the sequence
number, most significant first. -/
def synthIV (seq : Nat) : List Byte :=
  [0x00, 0x00, 0x00, 0x00,
   0x00, 0x00, 0x00, 0x00,
   toByte (seq >>> 56 &&& 0xff),
   toByte (seq >>> 48 &&& 0xff),
   toByte (seq >>> 40 &&& 0xff),
   toByte (seq >>> 32 &&& 0xff),
   toByte (seq >>> 24 &&& 0xff),
   toByte (seq >>> 16 &&& 0xff),
   toByte (seq >>> 8 &&& 0xff),
   toByte (seq &&& 0xff)]

/-- The zero value `DecryptionParameters{}` that seeds the carry-forward
accumulator at line 479: empty method, sequence 0, nil key, nil IV. -/
def initParam : DecryptionParameters :=
  { method := "", sequence := 0, key := none, iv := [] }

/-- The loop body of `GetStreamDecryptionParameters` (lines 480-519),
with the Go range index `i` and the mutable `param` made explicit.
Nil segments are skipped (the index still advances).  For a surviving
segment: the sequence number is set (uint64 addition, hence `% 2 ^ 64`); the
IV is synthesized when the segment has no key or its key declares an empty
IV; a declared key sets the method, overrides the IV when non-empty, and is
fetched — a fetch failure returns the parameters accumulated so far together
with the error (Go named-return `return`), excluding the failing segment. -/
def deriveLoop (fetch : String → Except NhlError (List Byte)) (seqNo : Nat) :
    Nat → DecryptionParameters → List (Option MediaSegment) →
    List DecryptionParameters × Option NhlError
  | _, _, [] => ([], none)
  | i, param, none :: rest => deriveLoop fetch seqNo (i + 1) param rest
  | i, param, some seg :: rest =>
    let p1 := { param with sequence := (seqNo + i) % 2 ^ 64 }
    let p2 :=
      match seg.key with
      | none => { p1 with iv := synthIV p1.sequence }
      | some k => if k.iv.length = 0 then { p1 with iv := synthIV p1.sequence } else p1
    match seg.key with
    | none =>
      let r := deriveLoop fetch seqNo (i + 1) p2 rest
      (p2 :: r.1, r.2)
    | some k =>
      let p3 := { p2 with method := k.method }
      let p4 := if k.iv.length > 0 then { p3 with iv := k.iv } else p3
      match fetch k.uri with
      | .error e => ([], some e)
      | .ok body =>
        let p5 := { p4 with key := some body }
        let r := deriveLoop fetch seqNo (i + 1) p5 rest
        (p5 :: r.1, r.2)

/-- Embedding of `GetStreamDecryptionParameters` (lines 466-522).  The pair
returned embeds the two Go named results `(params, err)`.  A non-media
playlist yields a `LogicError`; a media playlist without a document-level
cipher block yields the zero values (empty list, nil error) untouched;
otherwise the segment loop runs. -/
def GetStreamDecryptionParameters (fetch : String → Except NhlError (List Byte))
    (media : StreamPlaylist) : List DecryptionParameters × Option NhlError :=
  match media.m3u8 with
  | .master _ => ([], some (.logic "GetDecryptionParameters" errM3U8ExpectedMedia))
  | .media playlist =>
    match playlist.key with
    | none => ([], none)
    | some _ => deriveLoop fetch playlist.seqNo 0 initParam playlist.segments

/-- The surviving (non-nil) segments of a segment array, each paired with its
index in the original array, starting the count at `i`. -/
def survivorsFrom (i : Nat) : List (Option MediaSegment) → List (Nat × MediaSegment)
  | [] => []
  | none :: rest => survivorsFrom (i + 1) rest
  | some seg :: rest => (i, seg) :: survivorsFrom (i + 1) rest

/-- The surviving segments of a media playlist's segment array with their
original indices. -/
def survivors (segs : List (Option MediaSegment)) : List (Nat × MediaSegment) :=
  survivorsFrom 0 segs

/-- `deriveLoop` restricted to an already-filtered list of surviving segments
with their original indices; the skipping of nil placeholders is factored
out.  (`deriveLoop_eq_deriveSurv` below proves this is the same function.) -/
def deriveSurv (fetch : String → Except NhlError (List Byte)) (seqNo : Nat) :
    DecryptionParameters → List (Nat × MediaSegment) →
    List DecryptionParameters × Option NhlError
  | _, [] => ([], none)
  | param, (i, seg) :: rest =>
    let p1 := { param with sequence := (seqNo + i) % 2 ^ 64 }
    let p2 :=
      match seg.key with
      | none => { p1 with iv := synthIV p1.sequence }
      | some k => if k.iv.length = 0 then { p1 with iv := synthIV p1.sequence } else p1
    match seg.key with
    | none =>
      let r := deriveSurv fetch seqNo p2 rest
      (p2 :: r.1, r.2)
    | some k =>
      let p3 := { p2 with method := k.method }
      let p4 := if k.iv.length > 0 then { p3 with iv := k.iv } else p3
      match fetch k.uri with
      | .error e => ([], some e)
      | .ok body =>
        let p5 := { p4 with key := some body }
        let r := deriveSurv fetch seqNo p5 rest
        (p5 :: r.1, r.2)

/-! ## Embedding of Go's standard-library `sort.Sort` (Go 1.4, `src/sort/sort.go`)

`GetPlaylistsFromURL` sorts master-playlist descriptors with
`sort.Sort(ByHighestBandwidth(playlists))` where the repository defines
`Less(i, j) = a[i].Bandwidth > a[j].Bandwidth` (`gamecenter.go` lines
121-125).  `sort.Sort` is the stdlib's unstable intro-sort of the Go 1.x era
(quicksort with median-of-three pivoting, Bentley-McIlroy three-way
partitioning, insertion sort below 8 elements, heapsort at depth limit).  The
comparator only reads the `Bandwidth` field, so the embedding is generic over
a slice of `α` with a key function `k : α → Nat` and `Less(i, j) :=
k l[i] > k l[j]`.  `sget`/`swapL` embed slice indexing and `data.Swap`; a
`dflt` element stands for out-of-range reads, which no reachable call
performs.  Loop fuels are initialised above the loop's iteration bound, so
the fuel-exhaustion branches are unreachable. -/

section GoSort

variable {α : Type} (k : α → Nat) (dflt : α)

/-- Slice read `data[i]` (with `dflt` out of range, which no run reaches). -/
def sget (l : List α) (i : Nat) : α := l.getD i dflt

/-- `data.Swap(i, j)`. -/
def swapL (l : List α) (i j : Nat) : List α :=
  let x := sget dflt l i
  let y := sget dflt l j
  (l.set i y).set j x

/-- `insertionSort`'s inner loop:
`for j := i; j > a && data.Less(j, j-1); j-- { data.Swap(j, j-1) }`. -/
def insSortInner (a : Nat) : Nat → List α → List α
  | 0, l => l
  | j + 1, l =>
    if j + 1 > a ∧ k (sget dflt l (j + 1)) > k (sget dflt l j) then
      insSortInner a j (swapL dflt l (j + 1) j)
    else l

/-- `insertionSort`'s outer loop: `for i := a + 1; i < b; i++`, fueled. -/
def insSortOuter (a b : Nat) : Nat → Nat → List α → List α
  | 0, _, l => l
  | fuel + 1, i, l =>
    if i < b then insSortOuter a b fuel (i + 1) (insSortInner k dflt a i l) else l

/-- Go `insertionSort(data, a, b)`. -/
def insertionSortGo (l : List α) (a b : Nat) : List α :=
  insSortOuter k dflt a b b (a + 1) l

/-- Go `siftDown(data, lo, hi, first)`, fueled; the root index strictly
increases and is bounded by `hi`, so fuel `hi + 1` always suffices. -/
def siftDownGo (first hi : Nat) : Nat → Nat → List α → List α
  | 0, _, l => l
  | fuel + 1, root, l =>
    let child := 2 * root + 1
    if child ≥ hi then l
    else
      let child :=
        if child + 1 < hi ∧ k (sget dflt l (first + child)) > k (sget dflt l (first + child + 1))
        then child + 1 else child
      if ¬ k (sget dflt l (first + root)) > k (sget dflt l (first + child)) then l
      else siftDownGo first hi fuel child (swapL dflt l (first + root) (first + child))

/-- `heapSort`'s heap-construction loop: `for i := (hi-1)/2; i >= 0; i--`,
embedded as a countdown on the number of remaining iterations. -/
def heapBuild (first hi : Nat) : Nat → List α → List α
  | 0, l => l
  | cnt + 1, l => heapBuild first hi cnt (siftDownGo k dflt first hi (hi + 1) cnt l)

/-- `heapSort`'s pop loop: `for i := hi - 1; i >= 0; i--
{ data.Swap(first, first+i); siftDown(data, lo, i, first) }`, embedded as a
countdown on the number of remaining iterations. -/
def heapPop (first : Nat) : Nat → List α → List α
  | 0, l => l
  | i + 1, l => heapPop first i (siftDownGo k dflt first i (i + 1) 0 (swapL dflt l first (first + i)))

/-- Go `heapSort(data, a, b)`. -/
def heapSortGo (l : List α) (a b : Nat) : List α :=
  let first := a
  let hi := b - a
  heapPop k dflt first hi (heapBuild k dflt first hi ((hi - 1) / 2 + 1) l)

/-- Go `medianOfThree(data, a, b, c)`: the three conditional swaps that leave
the median of the three elements at index `a`. -/
def medianOfThree (l : List α) (a b c : Nat) : List α :=
  let m0 := b
  let m1 := a
  let m2 := c
  let l := if k (sget dflt l m1) > k (sget dflt l m0) then swapL dflt l m1 m0 else l
  let l := if k (sget dflt l m2) > k (sget dflt l m1) then swapL dflt l m2 m1 else l
  let l := if k (sget dflt l m1) > k (sget dflt l m0) then swapL dflt l m1 m0 else l
  l

/-- Go `swapRange(data, a, b, n)`. -/
def swapRangeGo : Nat → Nat → Nat → List α → List α
  | _, _, 0, l => l
  | a, b, n + 1, l => swapRangeGo (a + 1) (b + 1) n (swapL dflt l a b)

/-- `doPivot`'s Bentley-McIlroy partition loop.  State is
`(data, a, b, c, d)`; each iteration applies the first applicable of the five
cases of the Go loop body (advance `b` past smaller elements, move
pivot-equal elements at `b` to the left block, retreat `c` past greater
elements, move pivot-equal elements at `c-1` to the right block, or exchange
`data[b]` and `data[c-1]`).  Every iteration shrinks `c - b`, so fuel
`c - b + 1` suffices. -/
def pivotLoop (pivot : Nat) : Nat → List α × Nat × Nat × Nat × Nat → List α × Nat × Nat × Nat × Nat
  | 0, st => st
  | fuel + 1, (l, a, b, c, d) =>
    if b < c then
      if k (sget dflt l b) > k (sget dflt l pivot) then
        pivotLoop pivot fuel (l, a, b + 1, c, d)
      else if ¬ k (sget dflt l pivot) > k (sget dflt l b) then
        pivotLoop pivot fuel (swapL dflt l a b, a + 1, b + 1, c, d)
      else if k (sget dflt l pivot) > k (sget dflt l (c - 1)) then
        pivotLoop pivot fuel (l, a, b, c - 1, d)
      else if ¬ k (sget dflt l (c - 1)) > k (sget dflt l pivot) then
        pivotLoop pivot fuel (swapL dflt l (c - 1) (d - 1), a, b, c - 1, d - 1)
      else
        pivotLoop pivot fuel (swapL dflt l b (c - 1), a, b + 1, c - 1, d)
    else (l, a, b, c, d)

/-- Go `doPivot(data, lo, hi)`: median-of-three (ninther above 40 elements)
pivot selection, the partition loop, and the two `swapRange` block moves;
returns the new data and `(midlo, midhi)`. -/
def doPivot (l : List α) (lo hi : Nat) : List α × Nat × Nat :=
  let m := lo + (hi - lo) / 2
  let l :=
    if hi - lo > 40 then
      let s := (hi - lo) / 8
      let l := medianOfThree k dflt l lo (lo + s) (lo + 2 * s)
      let l := medianOfThree k dflt l m (m - s) (m + s)
      medianOfThree k dflt l (hi - 1) (hi - 1 - s) (hi - 1 - 2 * s)
    else l
  let l := medianOfThree k dflt l lo m (hi - 1)
  let pivot := lo
  match pivotLoop k dflt pivot (hi - lo + 1) (l, lo + 1, lo + 1, hi, hi) with
  | (l, a, b, c, d) =>
    let n1 := min (b - a) (a - lo)
    let l := swapRangeGo dflt lo (b - n1) n1 l
    let n2 := min (hi - d) (d - c)
    let l := swapRangeGo dflt c (hi - n2) n2 l
    (l, lo + (b - a), hi - (d - c))

/-- Go `quickSort(data, a, b, maxDepth)`: above 7 elements partition and
recurse on the smaller side, looping on the larger (embedded as the second
recursive call); at depth 0 fall back to heapsort; at 7 or fewer elements
finish with insertion sort.  Structural on `maxDepth`, which the Go code
decrements on every loop iteration and recursive call. -/
def quickSortGo : Nat → List α → Nat → Nat → List α
  | md, l, a, b =>
    if b - a > 7 then
      match md with
      | 0 => heapSortGo k dflt l a b
      | md' + 1 =>
        match doPivot k dflt l a b with
        | (l1, mlo, mhi) =>
          if mlo - a < b - mhi then
            quickSortGo md' (quickSortGo md' l1 a mlo) mhi b
          else
            quickSortGo md' (quickSortGo md' l1 mhi b) a mlo
    else if b - a > 1 then insertionSortGo k dflt l a b
    else l

/-- The `maxDepth` loop of Go `sort.Sort`:
`for i := n; i > 0; i >>= 1 { maxDepth++ }`, fueled (the loop halves `i`, so
`n` units of fuel always suffice). -/
def maxDepthAux : Nat → Nat → Nat
  | 0, _ => 0
  | fuel + 1, i => if i > 0 then maxDepthAux fuel (i >>> 1) + 1 else 0

/-- Go `sort.Sort(data)`: compute the depth limit `2 * ceil(lg(n+1))` and run
`quickSort(data, 0, n, maxDepth)`. -/
def sortGo (l : List α) : List α :=
  let n := l.length
  let maxDepth := 2 * maxDepthAux n n
  quickSortGo k dflt maxDepth l 0 n

end GoSort

/-- A zero-valued `StreamPlaylist`, the out-of-range placeholder handed to the
generic sort (no reachable read returns it). -/
def dfltStream : StreamPlaylist :=
  { rawFile := "", m3u8 := .master { variants := [] }, url := ⟨"", "", "", ""⟩, bandwidth := 0 }

/-- `sort.Sort(ByHighestBandwidth(playlists))`: the stdlib sort driven by the
repository's comparator `a[i].Bandwidth > a[j].Bandwidth`. -/
def sortByHighestBandwidth (l : List StreamPlaylist) : List StreamPlaylist :=
  sortGo StreamPlaylist.bandwidth dfltStream l

/-- The master branch of `GetPlaylistsFromURL` (lines 368-383) after the
transport fetch and the m3u8 decode, which are external: build one descriptor
per variant, in document order, then sort by descending bandwidth. -/
def GetPlaylistsFromURL_master (parsedURL : URL) (response : String)
    (pl : MasterPlaylist) : List StreamPlaylist :=
  sortByHighestBandwidth (pl.variants.map (mkVariantStream parsedURL response pl))

/-- The media branch of `GetPlaylistsFromURL` (lines 384-410) after the
transport fetch and the m3u8 decode: sanitize the cipher metadata in place
(possibly faulting), then build one descriptor per surviving segment, in
document order, each holding the (fully sanitized, pointer-shared) playlist. -/
def GetPlaylistsFromURL_media (parsedURL : URL) (response : String)
    (pl : MediaPlaylist) : Except GoPanic (MediaPlaylist × List StreamPlaylist) := do
  let pl' ← sanitizeMediaPlaylist pl
  return (pl', pl'.segments.filterMap fun s => s.map (mkSegmentStream parsedURL response pl'))

/-- `GetMediaPlaylist` (lines 420-462) after the transport fetch, the m3u8
decode and the media-kind check, which are external: sanitize the cipher
metadata in place (possibly faulting) and wrap the playlist in a descriptor
that inherits the master descriptor's URL and bandwidth. -/
def GetMediaPlaylist_core (master : StreamPlaylist) (response : String)
    (pl : MediaPlaylist) : Except GoPanic StreamPlaylist := do
  let pl' ← sanitizeMediaPlaylist pl
  return { rawFile := response, m3u8 := .media pl', url := master.url,
           bandwidth := master.bandwidth }

/-! ## Auxiliary definitions used in the statements and proofs -/

/-- Out-of-range placeholder for indexing into survivor lists. -/
def dfltSurv : Nat × MediaSegment := (0, { uri := "", key := none })

/-- The parameter value emitted by one `deriveSurv`/`deriveLoop` iteration for
a surviving segment with no cipher block, as a function of the incoming
accumulator: sequence set, IV synthesized, method and key carried forward. -/
def keylessStep (seqNo i : Nat) (param : DecryptionParameters) : DecryptionParameters :=
  { method := param.method
    sequence := (seqNo + i) % 2 ^ 64
    key := param.key
    iv := synthIV ((seqNo + i) % 2 ^ 64) }

/-- The parameter value emitted by one `deriveSurv`/`deriveLoop` iteration for
a surviving segment whose cipher block is `kb` and whose key fetch returned
`body`: sequence set, method taken from the block, the block's IV when
non-empty (else the synthesized one), key set to the response body. -/
def keyedStep (seqNo i : Nat) (kb : MediaKey) (body : List Byte) : DecryptionParameters :=
  { method := kb.method
    sequence := (seqNo + i) % 2 ^ 64
    key := some body
    iv := if kb.iv.length > 0 then kb.iv else synthIV ((seqNo + i) % 2 ^ 64) }

/-- The quote-stripping transformation as the specification words it: remove
exactly one leading and one trailing quote character when both are present
(which requires at least two characters), otherwise leave the value
unchanged.  Stated separately from the source-derived `stripKeyURI` so the
two can be compared. -/
def stripQuotesSpec (s : String) : String :=
  if 2 ≤ s.length ∧ s.toList.headD quoteChar = quoteChar ∧ s.toList.getLastD quoteChar = quoteChar
  then String.mk (s.toList.drop 1 |>.dropLast)
  else s

/-- A key URI on which the sanitization idiom does not fault: non-empty, and
not the one-character string consisting of a quote character. -/
def safeURI (s : String) : Prop := s ≠ "" ∧ s ≠ String.mk [quoteChar]

/-- `stripQuotesSpec` applied to a possibly-absent cipher block's URI. -/
def stripKeySpec (ok : Option MediaKey) : Option MediaKey :=
  ok.map fun kb => { kb with uri := stripQuotesSpec kb.uri }

/-- The whole-playlist sanitization as the specification words it: quote-strip
the document-level key URI and every surviving segment's key URI. -/
def sanitizeSpec (pl : MediaPlaylist) : MediaPlaylist :=
  { pl with
    key := stripKeySpec pl.key
    segments := pl.segments.map (Option.map fun seg => { seg with key := stripKeySpec seg.key }) }

section SortModel

variable {α : Type} (k : α → Nat)

/-- Functional model of the insertion step of `insertionSortGo`: place `x`
before the first element it strictly beats (so after every element with an
equal key — stability). -/
def insFun (x : α) : List α → List α
  | [] => [x]
  | y :: t => if k x > k y then x :: y :: t else y :: insFun x t

/-- Functional model of the whole insertion sort: fold the pending elements
into an already-sorted accumulator, left to right. -/
def insSortFun (acc : List α) (rest : List α) : List α :=
  rest.foldl (fun a x => insFun k x a) acc

/-- Sorted in descending key order. -/
def sortedByKeyDesc (l : List α) : Prop := List.Pairwise (fun p q => k q ≤ k p) l

end SortModel

/-! ### Concrete inputs used by counterexamples and witnesses -/

/-- A fetch oracle for the key-fetch-failure counterexample: the first key URI
resolves, the second fails with the `NetworkError` that `getResponseBody`
produces for a non-200 status. -/
def c1Fetch : String → Except NhlError (List Byte) := fun u =>
  if u = "https://k/1" then .ok [0xaa]
  else .error (.network "GetDecryptionParameters" "Expected a status code of 200" 404 u)

/-- A two-segment encrypted media playlist whose segments both declare cipher
blocks, with key URIs `https://k/1` and `https://k/2`. -/
def c1Playlist : MediaPlaylist :=
  { seqNo := 0
    key := some { method := "AES-128", uri := "https://k/doc", iv := [] }
    segments :=
      [some { uri := "seg0.ts", key := some { method := "AES-128", uri := "https://k/1", iv := [] } },
       some { uri := "seg1.ts", key := some { method := "AES-128", uri := "https://k/2", iv := [] } }] }

/-- The `StreamPlaylist` wrapper handed to `GetStreamDecryptionParameters` in
the key-fetch-failure counterexample. -/
def c1Stream : StreamPlaylist :=
  { rawFile := "", m3u8 := .media c1Playlist, url := ⟨"https", "h", "/a/m.m3u8", ""⟩, bandwidth := 0 }

/-- An eight-variant master playlist with two equal-bandwidth variants
(`a` then `b`, both bandwidth 5) placed so that the stdlib quicksort's
median-of-three swap displaces `a` past `b` and never restores the order. -/
def cexMaster : MasterPlaylist :=
  { variants :=
      [{ uri := "a", bandwidth := 5 }, { uri := "b", bandwidth := 5 },
       { uri := "c", bandwidth := 6 }, { uri := "d", bandwidth := 7 },
       { uri := "e", bandwidth := 3 }, { uri := "f", bandwidth := 2 },
       { uri := "g", bandwidth := 8 }, { uri := "h", bandwidth := 1 }] }

/-- The base URL used by the sorting counterexample. -/
def cexURL : URL := { scheme := "https", host := "h", path := "/x/m.m3u8", rawQuery := "q=1" }

/-- A fetch oracle that fails every request with the `NetworkError` that
`getResponseBody` produces for a non-200 status. -/
def failFetch : String → Except NhlError (List Byte) := fun u =>
  .error (.network "GetDecryptionParameters" "Expected a status code of 200" 500 u)

/-- A fetch oracle that answers `https://k/key1` with the key bytes `K1` and
fails everything else. -/
def c4Fetch : String → Except NhlError (List Byte) := fun u =>
  if u = "https://k/key1" then .ok [0x4b, 0x31]
  else .error (.network "GetDecryptionParameters" "Expected a status code of 200" 404 u)

/-- Witness playlist for the sequence-number claim: start sequence 7, a nil
placeholder then one surviving keyless segment at original index 1. -/
def c5Playlist : MediaPlaylist :=
  { seqNo := 7
    key := some { method := "AES-128", uri := "https://k/doc", iv := [] }
    segments := [none, some { uri := "seg1.ts", key := none }] }

/-- The `StreamPlaylist` wrapper around `c5Playlist`. -/
def c5Stream : StreamPlaylist :=
  { rawFile := "", m3u8 := .media c5Playlist, url := ⟨"https", "h", "/p/m", "q"⟩, bandwidth := 0 }

/-- Witness playlist for the IV-synthesis claim: start sequence 5 and a single
keyless surviving segment, so the synthesized IV ends in byte 5. -/
def c3Playlist : MediaPlaylist :=
  { seqNo := 5
    key := some { method := "AES-128", uri := "https://k/doc", iv := [] }
    segments := [some { uri := "seg0.ts", key := none }] }

/-- The `StreamPlaylist` wrapper around `c3Playlist`. -/
def c3Stream : StreamPlaylist :=
  { rawFile := "", m3u8 := .media c3Playlist, url := ⟨"https", "h", "/p/m", "q"⟩, bandwidth := 0 }

/-- Witness playlist for the inheritance claim: segment `A` declares an
`AES-128` cipher block with key URI `https://k/key1` and no IV, segment `B`
declares none. -/
def c4Playlist : MediaPlaylist :=
  { seqNo := 0
    key := some { method := "AES-128", uri := "https://k/key1", iv := [] }
    segments :=
      [some { uri := "a.ts", key := some { method := "AES-128", uri := "https://k/key1", iv := [] } },
       some { uri := "b.ts", key := none }] }

/-- The `StreamPlaylist` wrapper around `c4Playlist`. -/
def c4Stream : StreamPlaylist :=
  { rawFile := "", m3u8 := .media c4Playlist, url := ⟨"https", "h", "/p/m", "q"⟩, bandwidth := 0 }

/-- Witness playlist for the unencrypted claim: no document-level cipher
block, segments present. -/
def c8Playlist : MediaPlaylist :=
  { seqNo := 3
    key := none
    segments := [some { uri := "a.ts", key := none }, some { uri := "b.ts", key := none }] }

/-- The `StreamPlaylist` wrapper around `c8Playlist`. -/
def c8Stream : StreamPlaylist :=
  { rawFile := "", m3u8 := .media c8Playlist, url := ⟨"https", "h", "/p/m", "q"⟩, bandwidth := 0 }

/-- Witness playlist for the document-key-opacity claim: one surviving
segment that declares no cipher block of its own. -/
def c10Playlist : MediaPlaylist :=
  { seqNo := 0
    key := some { method := "doc-method", uri := "https://k/doc", iv := [7] }
    segments := [some { uri := "s.ts", key := none }] }

/-- A media playlist whose document-level cipher block carries an empty key
URI (`URI[0]` faults). -/
def c9DocEmpty : MediaPlaylist :=
  { seqNo := 0
    key := some { method := "AES-128", uri := "", iv := [] }
    segments := [some { uri := "s.ts", key := none }] }

/-- A media playlist whose document-level cipher block's key URI is a single
quote character (`URI[1:0]` faults). -/
def c9DocQuote : MediaPlaylist :=
  { seqNo := 0
    key := some { method := "AES-128", uri := String.mk [quoteChar], iv := [] }
    segments := [] }

/-- A media playlist with an unremarkable document-level cipher block but a
segment-level cipher block carrying an empty key URI. -/
def c9SegEmpty : MediaPlaylist :=
  { seqNo := 0
    key := some { method := "AES-128", uri := "https://k/doc", iv := [] }
    segments := [some { uri := "s.ts", key := some { method := "AES-128", uri := "", iv := [] } }] }

/-- A media playlist with a segment-level cipher block whose key URI is a
single quote character. -/
def c9SegQuote : MediaPlaylist :=
  { seqNo := 0
    key := some { method := "AES-128", uri := "https://k/doc", iv := [] }
    segments :=
      [some { uri := "s.ts",
              key := some { method := "AES-128", uri := String.mk [quoteChar], iv := [] } }] }

/-- A document-level cipher block whose key URI carries literal leading and
trailing quote characters around `https://k/key1`. -/
def c7DocKey : MediaKey :=
  { method := "AES-128"
    uri := String.mk (quoteChar :: ("https://k/key1".toList ++ [quoteChar]))
    iv := [] }

/-- A segment-level cipher block with an unquoted key URI. -/
def c7SegKey : MediaKey := { method := "AES-128", uri := "https://k/key2", iv := [] }

/-- Witness playlist for quote stripping: a quoted document-level key URI and
one segment with an unquoted key URI. -/
def c7Playlist : MediaPlaylist :=
  { seqNo := 0
    key := some c7DocKey
    segments := [some { uri := "s.ts", key := some c7SegKey }] }

/-- A four-variant master playlist (small enough for the stdlib sort's
insertion-sort path) with an equal-bandwidth pair `a`, `c`. -/
def c2SmallMaster : MasterPlaylist :=
  { variants :=
      [{ uri := "a", bandwidth := 5 }, { uri := "b", bandwidth := 9 },
       { uri := "c", bandwidth := 5 }, { uri := "d", bandwidth := 1 }] }

section SortSpecDefs

variable {α : Type} (k : α → Nat) (dflt : α)

/-- Positions `[a, b)` of `l` hold keys in descending order. -/
def SortedRange (l : List α) (a b : Nat) : Prop :=
  ∀ i j, a ≤ i → i ≤ j → j < b → k (sget dflt l j) ≤ k (sget dflt l i)

/-- The invariant of `doPivot`'s partition loop (Bentley-McIlroy three-way
partitioning) over the region `[lo, hi)` with pivot key `pv`, relative to
the region's contents `l0` at loop entry: pivot-equal keys sit in
`[lo+1, a)` and `[d, hi)`, keys greater than the pivot in `[a, b)`, keys
less than it in `[c, d)`, `[b, c)` is unexamined, and the loop permutes
`l0` while leaving everything outside `[lo, hi)` untouched. -/
structure PivotInv (lo hi pv : Nat) (l0 l : List α) (a b c d : Nat) : Prop where
  ha : lo + 1 ≤ a
  hab : a ≤ b
  hbc : b ≤ c
  hcd : c ≤ d
  hd : d ≤ hi
  hlen : l.length = l0.length
  hhi : hi ≤ l.length
  hpivot : k (sget dflt l lo) = pv
  heqLeft : ∀ i, lo + 1 ≤ i → i < a → k (sget dflt l i) = pv
  hgt : ∀ i, a ≤ i → i < b → k (sget dflt l i) > pv
  hlt : ∀ i, c ≤ i → i < d → k (sget dflt l i) < pv
  heqRight : ∀ i, d ≤ i → i < hi → k (sget dflt l i) = pv
  hperm : l.Perm l0
  hframe : ∀ i, i < lo ∨ hi ≤ i → sget dflt l i = sget dflt l0 i

end SortSpecDefs

section CondSwapDef

variable {α : Type} (k : α → Nat) (dflt : α)

/-- One conditional exchange of `medianOfThree`:
`if data.Less(i, j) { data.Swap(i, j) }`. -/
def condSwap (l : List α) (i j : Nat) : List α :=
  if k (sget dflt l i) > k (sget dflt l j) then swapL dflt l i j else l

end CondSwapDef

section PrePivotDef

variable {α : Type} (k : α → Nat) (dflt : α)

/-- The pivot-selection phase of `doPivot` (the optional ninther and the
final median-of-three), factored out for the proofs;
`doPivot_eq_pivotLoop` below shows `doPivot` is this phase followed by the
partition loop and the block moves. -/
def prePivot (l : List α) (lo hi : Nat) : List α :=
  let m := lo + (hi - lo) / 2
  let l :=
    if hi - lo > 40 then
      let s := (hi - lo) / 8
      let l := medianOfThree k dflt l lo (lo + s) (lo + 2 * s)
      let l := medianOfThree k dflt l m (m - s) (m + s)
      medianOfThree k dflt l (hi - 1) (hi - 1 - s) (hi - 1 - 2 * s)
    else l
  medianOfThree k dflt l lo m (hi - 1)

end PrePivotDef

section HeapSpecDefs

variable {α : Type} (k : α → Nat) (dflt : α)

/-- `m` lies in the binary-heap subtree rooted at `r` (children of `j` are
`2j+1` and `2j+2`): repeatedly halving the 1-indexed position of `m` reaches
the 1-indexed position of `r`. -/
def DescH (r m : Nat) : Prop := ∃ t, (m + 1) >>> t = r + 1

/-- The heap order of Go's `heapSort` (minimal key at the root, since
`Less` compares keys with `>`) over the window starting at offset `f`:
every parent `j ≥ s` with a child `c < n` has a key no larger than the
child's. -/
def PartialHeapP (f s n : Nat) (l : List α) : Prop :=
  ∀ j c, s ≤ j → c < n → (c = 2 * j + 1 ∨ c = 2 * j + 2) →
    k (sget dflt l (f + j)) ≤ k (sget dflt l (f + c))

end HeapSpecDefs

/-! ## Theorems -/

theorem deriveLoop_eq_deriveSurv (fetch : String → Except NhlError (List Byte))
    (seqNo : Nat) (i : Nat) (param : DecryptionParameters)
    (segs : List (Option MediaSegment)) :
    deriveLoop fetch seqNo i param segs =
      deriveSurv fetch seqNo param (survivorsFrom i segs) := by
  induction segs generalizing i param with
  | nil => rfl
  | cons s rest ih =>
    cases s with
    | none => simpa [deriveLoop, survivorsFrom] using ih (i + 1) param
    | some seg =>
      simp only [deriveLoop, survivorsFrom, deriveSurv]
      cases hk : seg.key with
      | none => simp [hk, ih]
      | some k =>
        simp only [hk]
        cases fetch k.uri with
        | error e => rfl
        | ok body => simp [ih]

theorem deriveSurv_cons_none (fetch : String → Except NhlError (List Byte)) (seqNo : Nat)
    (param : DecryptionParameters) (i : Nat) (seg : MediaSegment)
    (rest : List (Nat × MediaSegment)) (hk : seg.key = none) :
    deriveSurv fetch seqNo param ((i, seg) :: rest) =
      (keylessStep seqNo i param :: (deriveSurv fetch seqNo (keylessStep seqNo i param) rest).1,
       (deriveSurv fetch seqNo (keylessStep seqNo i param) rest).2) := by
  obtain ⟨su, sk⟩ := seg
  simp only [MediaSegment.key] at hk
  subst hk
  rfl

theorem deriveSurv_cons_err (fetch : String → Except NhlError (List Byte)) (seqNo : Nat)
    (param : DecryptionParameters) (i : Nat) (seg : MediaSegment) (kb : MediaKey)
    (e : NhlError) (rest : List (Nat × MediaSegment))
    (hk : seg.key = some kb) (hf : fetch kb.uri = Except.error e) :
    deriveSurv fetch seqNo param ((i, seg) :: rest) = ([], some e) := by
  obtain ⟨su, sk⟩ := seg
  simp only [MediaSegment.key] at hk
  subst hk
  simp only [deriveSurv, hf]

theorem deriveSurv_cons_ok (fetch : String → Except NhlError (List Byte)) (seqNo : Nat)
    (param : DecryptionParameters) (i : Nat) (seg : MediaSegment) (kb : MediaKey)
    (body : List Byte) (rest : List (Nat × MediaSegment))
    (hk : seg.key = some kb) (hf : fetch kb.uri = Except.ok body) :
    deriveSurv fetch seqNo param ((i, seg) :: rest) =
      (keyedStep seqNo i kb body :: (deriveSurv fetch seqNo (keyedStep seqNo i kb body) rest).1,
       (deriveSurv fetch seqNo (keyedStep seqNo i kb body) rest).2) := by
  obtain ⟨su, sk⟩ := seg
  simp only [MediaSegment.key] at hk
  subst hk
  by_cases h0 : kb.iv.length = 0 <;>
    simp [deriveSurv, hf, keyedStep, h0, Nat.pos_iff_ne_zero]

theorem getStream_eq_deriveSurv (fetch : String → Except NhlError (List Byte))
    (sp : StreamPlaylist) (pl : MediaPlaylist) (K : MediaKey)
    (hm : sp.m3u8 = Playlist.media pl) (hK : pl.key = some K) :
    GetStreamDecryptionParameters fetch sp =
      deriveSurv fetch pl.seqNo initParam (survivors pl.segments) := by
  simp only [GetStreamDecryptionParameters, hm, hK]
  exact deriveLoop_eq_deriveSurv fetch pl.seqNo 0 initParam pl.segments

theorem deriveSurv_length_le (fetch : String → Except NhlError (List Byte)) (seqNo : Nat) :
    ∀ (sv : List (Nat × MediaSegment)) (param : DecryptionParameters),
      ((deriveSurv fetch seqNo param sv).1).length ≤ sv.length := by
  intro sv
  induction sv with
  | nil => intro param; simp [deriveSurv]
  | cons hd rest ih =>
    obtain ⟨i, seg⟩ := hd
    intro param
    cases hk : seg.key with
    | none =>
      rw [deriveSurv_cons_none fetch seqNo param i seg rest hk]
      simpa using ih _
    | some kb =>
      cases hf : fetch kb.uri with
      | error e =>
        rw [deriveSurv_cons_err fetch seqNo param i seg kb e rest hk hf]
        simp
      | ok body =>
        rw [deriveSurv_cons_ok fetch seqNo param i seg kb body rest hk hf]
        simpa using ih _

theorem deriveSurv_noerr_length (fetch : String → Except NhlError (List Byte)) (seqNo : Nat) :
    ∀ (sv : List (Nat × MediaSegment)) (param : DecryptionParameters),
      (deriveSurv fetch seqNo param sv).2 = none →
      ((deriveSurv fetch seqNo param sv).1).length = sv.length := by
  intro sv
  induction sv with
  | nil => intro param _; simp [deriveSurv]
  | cons hd rest ih =>
    obtain ⟨i, seg⟩ := hd
    intro param he
    cases hk : seg.key with
    | none =>
      rw [deriveSurv_cons_none fetch seqNo param i seg rest hk] at he ⊢
      simpa using ih _ he
    | some kb =>
      cases hf : fetch kb.uri with
      | error e =>
        rw [deriveSurv_cons_err fetch seqNo param i seg kb e rest hk hf] at he
        simp at he
      | ok body =>
        rw [deriveSurv_cons_ok fetch seqNo param i seg kb body rest hk hf] at he ⊢
        simpa using ih _ he

theorem deriveSurv_seq (fetch : String → Except NhlError (List Byte)) (seqNo : Nat) :
    ∀ (sv : List (Nat × MediaSegment)) (param : DecryptionParameters) (j : Nat),
      j < ((deriveSurv fetch seqNo param sv).1).length →
      (((deriveSurv fetch seqNo param sv).1).getD j initParam).sequence =
        (seqNo + (sv.getD j dfltSurv).1) % 2 ^ 64 := by
  intro sv
  induction sv with
  | nil => intro param j hj; simp [deriveSurv] at hj
  | cons hd rest ih =>
    obtain ⟨i, seg⟩ := hd
    intro param j hj
    cases hk : seg.key with
    | none =>
      rw [deriveSurv_cons_none fetch seqNo param i seg rest hk] at hj ⊢
      cases j with
      | zero => simp [keylessStep]
      | succ j' =>
        simp only [List.getD_cons_succ]
        exact ih _ j' (by simpa using hj)
    | some kb =>
      cases hf : fetch kb.uri with
      | error e =>
        rw [deriveSurv_cons_err fetch seqNo param i seg kb e rest hk hf] at hj
        simp at hj
      | ok body =>
        rw [deriveSurv_cons_ok fetch seqNo param i seg kb body rest hk hf] at hj ⊢
        cases j with
        | zero => simp [keyedStep]
        | succ j' =>
          simp only [List.getD_cons_succ]
          exact ih _ j' (by simpa using hj)

theorem survivorsFrom_getD_orig :
    ∀ (segs : List (Option MediaSegment)) (i j : Nat),
      j < (survivorsFrom i segs).length →
      i ≤ ((survivorsFrom i segs).getD j dfltSurv).1 ∧
      segs.getD (((survivorsFrom i segs).getD j dfltSurv).1 - i) none =
        some ((survivorsFrom i segs).getD j dfltSurv).2 := by
  intro segs
  induction segs with
  | nil => intro i j hj; simp [survivorsFrom] at hj
  | cons s rest ih =>
    intro i j hj
    cases s with
    | none =>
      simp only [survivorsFrom] at hj ⊢
      obtain ⟨h1, h2⟩ := ih (i + 1) j hj
      refine ⟨by omega, ?_⟩
      have hge : ((survivorsFrom (i + 1) rest).getD j dfltSurv).1 - i ≥ 1 := by omega
      have : ((survivorsFrom (i + 1) rest).getD j dfltSurv).1 - i =
          (((survivorsFrom (i + 1) rest).getD j dfltSurv).1 - (i + 1)) + 1 := by omega
      rw [this]
      simpa using h2
    | some seg =>
      simp only [survivorsFrom] at hj ⊢
      cases j with
      | zero => simp
      | succ j' =>
        simp only [List.getD_cons_succ]
        obtain ⟨h1, h2⟩ := ih (i + 1) j' (by simpa using hj)
        refine ⟨by omega, ?_⟩
        have : ((survivorsFrom (i + 1) rest).getD j' dfltSurv).1 - i =
            (((survivorsFrom (i + 1) rest).getD j' dfltSurv).1 - (i + 1)) + 1 := by omega
        rw [this]
        simpa using h2

theorem deriveSurv_iv (fetch : String → Except NhlError (List Byte)) (seqNo : Nat) :
    ∀ (sv : List (Nat × MediaSegment)) (param : DecryptionParameters) (j : Nat),
      j < ((deriveSurv fetch seqNo param sv).1).length →
      ((sv.getD j dfltSurv).2.key = none ∨
        ∃ kb, (sv.getD j dfltSurv).2.key = some kb ∧ kb.iv = []) →
      (((deriveSurv fetch seqNo param sv).1).getD j initParam).iv =
        synthIV ((((deriveSurv fetch seqNo param sv).1).getD j initParam).sequence) := by
  intro sv
  induction sv with
  | nil => intro param j hj; simp [deriveSurv] at hj
  | cons hd rest ih =>
    obtain ⟨i, seg⟩ := hd
    intro param j hj hkey
    cases hk : seg.key with
    | none =>
      rw [deriveSurv_cons_none fetch seqNo param i seg rest hk] at hj ⊢
      cases j with
      | zero => simp [keylessStep]
      | succ j' =>
        simp only [List.getD_cons_succ]
        simp only [List.getD_cons_succ] at hkey
        exact ih _ j' (by simpa using hj) hkey
    | some kb =>
      cases hf : fetch kb.uri with
      | error e =>
        rw [deriveSurv_cons_err fetch seqNo param i seg kb e rest hk hf] at hj
        simp at hj
      | ok body =>
        rw [deriveSurv_cons_ok fetch seqNo param i seg kb body rest hk hf] at hj ⊢
        cases j with
        | zero =>
          simp only [List.getD_cons_zero] at hkey ⊢
          rcases hkey with hnone | ⟨kb', hkb', hiv⟩
          · rw [hk] at hnone; cases hnone
          · rw [hk] at hkb'
            injection hkb' with hkb'
            subst hkb'
            simp [keyedStep, hiv]
        | succ j' =>
          simp only [List.getD_cons_succ]
          simp only [List.getD_cons_succ] at hkey
          exact ih _ j' (by simpa using hj) hkey

theorem deriveSurv_head_keyless (fetch : String → Except NhlError (List Byte)) (seqNo : Nat)
    (param : DecryptionParameters) (i : Nat) (seg : MediaSegment)
    (rest : List (Nat × MediaSegment)) (hk : seg.key = none) :
    ((deriveSurv fetch seqNo param ((i, seg) :: rest)).1).getD 0 initParam =
      keylessStep seqNo i param ∧
    (deriveSurv fetch seqNo param ((i, seg) :: rest)).1 ≠ [] := by
  rw [deriveSurv_cons_none fetch seqNo param i seg rest hk]
  simp

theorem deriveSurv_inherit (fetch : String → Except NhlError (List Byte)) (seqNo : Nat) :
    ∀ (sv : List (Nat × MediaSegment)) (param : DecryptionParameters) (j : Nat),
      j + 1 < ((deriveSurv fetch seqNo param sv).1).length →
      (sv.getD (j + 1) dfltSurv).2.key = none →
      (((deriveSurv fetch seqNo param sv).1).getD (j + 1) initParam).method =
        (((deriveSurv fetch seqNo param sv).1).getD j initParam).method ∧
      (((deriveSurv fetch seqNo param sv).1).getD (j + 1) initParam).key =
        (((deriveSurv fetch seqNo param sv).1).getD j initParam).key := by
  intro sv
  induction sv with
  | nil => intro param j hj; simp [deriveSurv] at hj
  | cons hd rest ih =>
    obtain ⟨i, seg⟩ := hd
    intro param j hj hkey
    simp only [List.getD_cons_succ] at hkey
    cases hk : seg.key with
    | none =>
      rw [deriveSurv_cons_none fetch seqNo param i seg rest hk] at hj ⊢
      cases j with
      | zero =>
        simp only [List.getD_cons_succ, List.getD_cons_zero]
        simp only [List.length_cons] at hj
        cases hrest : rest with
        | nil => rw [hrest] at hj; simp [deriveSurv] at hj
        | cons hd' rest' =>
          obtain ⟨i', seg'⟩ := hd'
          rw [hrest] at hkey
          simp only [List.getD_cons_zero] at hkey
          have := deriveSurv_head_keyless fetch seqNo (keylessStep seqNo i param) i' seg' rest' hkey
          rw [this.1]
          simp [keylessStep]
      | succ j' =>
        simp only [List.getD_cons_succ]
        exact ih _ j' (by simpa using hj) hkey
    | some kb =>
      cases hf : fetch kb.uri with
      | error e =>
        rw [deriveSurv_cons_err fetch seqNo param i seg kb e rest hk hf] at hj
        simp at hj
      | ok body =>
        rw [deriveSurv_cons_ok fetch seqNo param i seg kb body rest hk hf] at hj ⊢
        cases j with
        | zero =>
          simp only [List.getD_cons_succ, List.getD_cons_zero]
          simp only [List.length_cons] at hj
          cases hrest : rest with
          | nil => rw [hrest] at hj; simp [deriveSurv] at hj
          | cons hd' rest' =>
            obtain ⟨i', seg'⟩ := hd'
            rw [hrest] at hkey
            simp only [List.getD_cons_zero] at hkey
            have := deriveSurv_head_keyless fetch seqNo (keyedStep seqNo i kb body) i' seg' rest' hkey
            rw [this.1]
            simp [keylessStep, keyedStep]
        | succ j' =>
          simp only [List.getD_cons_succ]
          exact ih _ j' (by simpa using hj) hkey

theorem deriveSurv_fail (fetch : String → Except NhlError (List Byte)) (seqNo : Nat) :
    ∀ (sv : List (Nat × MediaSegment)) (param : DecryptionParameters)
      (j : Nat) (kj : MediaKey) (e : NhlError),
      j < sv.length →
      (sv.getD j dfltSurv).2.key = some kj →
      fetch kj.uri = Except.error e →
      (∀ j' < j, ∀ kj', (sv.getD j' dfltSurv).2.key = some kj' →
        ∃ body, fetch kj'.uri = Except.ok body) →
      deriveSurv fetch seqNo param sv =
        ((deriveSurv fetch seqNo param (sv.take j)).1, some e) ∧
      (deriveSurv fetch seqNo param (sv.take j)).2 = none := by
  intro sv
  induction sv with
  | nil => intro param j kj e hj; simp at hj
  | cons hd rest ih =>
    obtain ⟨i, seg⟩ := hd
    intro param j kj e hj hkey hfail hearlier
    cases j with
    | zero =>
      simp only [List.getD_cons_zero] at hkey
      rw [deriveSurv_cons_err fetch seqNo param i seg kj e rest hkey hfail]
      simp [deriveSurv]
    | succ j' =>
      simp only [List.getD_cons_succ] at hkey
      have hlt : j' < rest.length := by simpa using hj
      cases hk : seg.key with
      | none =>
        have hrec := ih (keylessStep seqNo i param) j' kj e hlt hkey hfail
          (fun j'' hj'' kj'' hkey'' =>
            hearlier (j'' + 1) (by omega) kj'' (by simpa using hkey''))
        rw [List.take_succ_cons]
        rw [deriveSurv_cons_none fetch seqNo param i seg rest hk,
          deriveSurv_cons_none fetch seqNo param i seg (rest.take j') hk]
        refine ⟨?_, by simpa using hrec.2⟩
        rw [hrec.1]
      | some kb =>
        obtain ⟨body, hok⟩ := hearlier 0 (by omega) kb (by simpa using hk)
        have hrec := ih (keyedStep seqNo i kb body) j' kj e hlt hkey hfail
          (fun j'' hj'' kj'' hkey'' =>
            hearlier (j'' + 1) (by omega) kj'' (by simpa using hkey''))
        rw [List.take_succ_cons]
        rw [deriveSurv_cons_ok fetch seqNo param i seg kb body rest hk hok,
          deriveSurv_cons_ok fetch seqNo param i seg kb body (rest.take j') hk hok]
        refine ⟨?_, by simpa using hrec.2⟩
        rw [hrec.1]

theorem synthIV_eq (s : Nat) :
    synthIV s = List.replicate 8 0 ++
      [s / 2 ^ 56 % 256, s / 2 ^ 48 % 256, s / 2 ^ 40 % 256, s / 2 ^ 32 % 256,
       s / 2 ^ 24 % 256, s / 2 ^ 16 % 256, s / 2 ^ 8 % 256, s % 256] := by
  have hmask : ∀ x : Nat, x &&& 255 = x % 256 := by
    intro x
    have h : (255 : Nat) = 2 ^ 8 - 1 := by norm_num
    rw [h, Nat.and_pow_two_sub_one_eq_mod]
  simp only [synthIV, toByte, hmask, Nat.shiftRight_eq_div_pow, Nat.mod_mod_of_dvd _ dvd_rfl]
  rfl

/-- **C5** (confirmed).  For every media playlist handed to
`GetStreamDecryptionParameters`, the sequence number of every emitted entry
is the document's start sequence number plus the corresponding surviving
segment's index in the original segment array (as a `uint64` sum, i.e.
modulo `2 ^ 64`); the second conjunct certifies that this index really
addresses that segment in the original array, so skipped nil placeholders
occupy an index slot without shifting later survivors. -/
theorem getStream_sequence_numbers (fetch : String → Except NhlError (List Byte))
    (sp : StreamPlaylist) (pl : MediaPlaylist)
    (hm : sp.m3u8 = Playlist.media pl) (j : Nat)
    (hj : j < (GetStreamDecryptionParameters fetch sp).1.length) :
    j < (survivors pl.segments).length ∧
    pl.segments.getD ((survivors pl.segments).getD j dfltSurv).1 none =
      some ((survivors pl.segments).getD j dfltSurv).2 ∧
    (((GetStreamDecryptionParameters fetch sp).1).getD j initParam).sequence =
      (pl.seqNo + ((survivors pl.segments).getD j dfltSurv).1) % 2 ^ 64 := by
  cases hK : pl.key with
  | none =>
    simp [GetStreamDecryptionParameters, hm, hK] at hj
  | some K =>
    rw [getStream_eq_deriveSurv fetch sp pl K hm hK] at hj ⊢
    have hlen : j < (survivors pl.segments).length :=
      lt_of_lt_of_le hj (deriveSurv_length_le fetch pl.seqNo _ _)
    have horig := survivorsFrom_getD_orig pl.segments 0 j hlen
    refine ⟨hlen, ?_, deriveSurv_seq fetch pl.seqNo _ _ j hj⟩
    simpa [survivors] using horig.2

theorem getStream_sequence_numbers_witness :
    (0 < (GetStreamDecryptionParameters failFetch c5Stream).1.length) ∧
    ((GetStreamDecryptionParameters failFetch c5Stream).1.getD 0 initParam).sequence =
      (7 + 1) % 2 ^ 64 ∧
    ((survivors c5Playlist.segments).getD 0 dfltSurv).1 = 1 :=
  ⟨by decide,
   by
    have h := (getStream_sequence_numbers failFetch c5Stream c5Playlist rfl 0 (by decide)).2.2
    rw [h]; decide,
   by decide⟩

/-- **C3** (confirmed).  Every emitted entry whose surviving segment either
has no cipher block or declares an empty IV carries the synthesized IV:
exactly 16 bytes, eight zero bytes followed by the big-endian 8-byte
encoding of that entry's own sequence number. -/
theorem getStream_iv_synthesis (fetch : String → Except NhlError (List Byte))
    (sp : StreamPlaylist) (pl : MediaPlaylist)
    (hm : sp.m3u8 = Playlist.media pl) (j : Nat) (p : DecryptionParameters)
    (hp : p = ((GetStreamDecryptionParameters fetch sp).1).getD j initParam)
    (hj : j < (GetStreamDecryptionParameters fetch sp).1.length)
    (hkey : ((survivors pl.segments).getD j dfltSurv).2.key = none ∨
      ∃ kb, ((survivors pl.segments).getD j dfltSurv).2.key = some kb ∧ kb.iv = []) :
    p.iv = List.replicate 8 0 ++
      [p.sequence / 2 ^ 56 % 256, p.sequence / 2 ^ 48 % 256, p.sequence / 2 ^ 40 % 256,
       p.sequence / 2 ^ 32 % 256, p.sequence / 2 ^ 24 % 256, p.sequence / 2 ^ 16 % 256,
       p.sequence / 2 ^ 8 % 256, p.sequence % 256] ∧
    p.iv.length = 16 := by
  cases hK : pl.key with
  | none =>
    simp [GetStreamDecryptionParameters, hm, hK] at hj
  | some K =>
    rw [getStream_eq_deriveSurv fetch sp pl K hm hK] at hj hp
    have hiv := deriveSurv_iv fetch pl.seqNo _ initParam j hj hkey
    rw [← hp] at hiv
    rw [hiv, synthIV_eq]
    simp

theorem getStream_iv_synthesis_witness :
    ((GetStreamDecryptionParameters failFetch c3Stream).1.getD 0 initParam).iv =
      [0x00, 0x00, 0x00, 0x00, 0x00, 0x00, 0x00, 0x00,
       0x00, 0x00, 0x00, 0x00, 0x00, 0x00, 0x00, 0x05] := by
  have h := getStream_iv_synthesis failFetch c3Stream c3Playlist rfl 0 _ rfl
    (by decide) (Or.inl (by decide))
  rw [h.1]
  decide

/-- **C4** (confirmed).  Every emitted entry whose surviving segment declares
no cipher block inherits method and key from the immediately preceding
emitted entry, while its IV is synthesized from its own sequence number,
never inherited. -/
theorem getStream_inheritance (fetch : String → Except NhlError (List Byte))
    (sp : StreamPlaylist) (pl : MediaPlaylist)
    (hm : sp.m3u8 = Playlist.media pl) (j : Nat)
    (hj : j + 1 < (GetStreamDecryptionParameters fetch sp).1.length)
    (hkey : ((survivors pl.segments).getD (j + 1) dfltSurv).2.key = none) :
    (((GetStreamDecryptionParameters fetch sp).1).getD (j + 1) initParam).method =
      (((GetStreamDecryptionParameters fetch sp).1).getD j initParam).method ∧
    (((GetStreamDecryptionParameters fetch sp).1).getD (j + 1) initParam).key =
      (((GetStreamDecryptionParameters fetch sp).1).getD j initParam).key ∧
    (((GetStreamDecryptionParameters fetch sp).1).getD (j + 1) initParam).iv =
      synthIV ((((GetStreamDecryptionParameters fetch sp).1).getD (j + 1) initParam).sequence) := by
  cases hK : pl.key with
  | none => simp [GetStreamDecryptionParameters, hm, hK] at hj
  | some K =>
    rw [getStream_eq_deriveSurv fetch sp pl K hm hK] at hj ⊢
    obtain ⟨h1, h2⟩ := deriveSurv_inherit fetch pl.seqNo _ initParam j hj hkey
    exact ⟨h1, h2, deriveSurv_iv fetch pl.seqNo _ initParam (j + 1) hj (Or.inl hkey)⟩

theorem getStream_inheritance_witness :
    (0 + 1 < (GetStreamDecryptionParameters c4Fetch c4Stream).1.length) ∧
    ((GetStreamDecryptionParameters c4Fetch c4Stream).1.getD 1 initParam).method =
      ((GetStreamDecryptionParameters c4Fetch c4Stream).1.getD 0 initParam).method ∧
    ((GetStreamDecryptionParameters c4Fetch c4Stream).1.getD 1 initParam).key =
      ((GetStreamDecryptionParameters c4Fetch c4Stream).1.getD 0 initParam).key ∧
    ((GetStreamDecryptionParameters c4Fetch c4Stream).1.getD 0 initParam).method = "AES-128" ∧
    ((GetStreamDecryptionParameters c4Fetch c4Stream).1.getD 0 initParam).key =
      some [0x4b, 0x31] ∧
    ((GetStreamDecryptionParameters c4Fetch c4Stream).1.getD 1 initParam).sequence = 1 ∧
    ((GetStreamDecryptionParameters c4Fetch c4Stream).1.getD 1 initParam).iv =
      synthIV ((GetStreamDecryptionParameters c4Fetch c4Stream).1.getD 1 initParam).sequence := by
  have h := getStream_inheritance c4Fetch c4Stream c4Playlist rfl 0 (by decide) (by decide)
  exact ⟨by decide, h.1, h.2.1, by decide, by decide, by decide, h.2.2⟩

/-- **C8** (confirmed).  A media playlist with no document-level cipher block
yields the empty parameter list and no error, and the result does not depend
on the transport oracle at all (no transport call can influence it). -/
theorem getStream_unencrypted (fetch fetch' : String → Except NhlError (List Byte))
    (sp : StreamPlaylist) (pl : MediaPlaylist)
    (hm : sp.m3u8 = Playlist.media pl) (hk : pl.key = none) :
    GetStreamDecryptionParameters fetch sp = ([], none) ∧
    GetStreamDecryptionParameters fetch sp = GetStreamDecryptionParameters fetch' sp := by
  constructor <;> simp [GetStreamDecryptionParameters, hm, hk]

theorem getStream_unencrypted_witness :
    GetStreamDecryptionParameters failFetch c8Stream = ([], none) ∧
    GetStreamDecryptionParameters failFetch c8Stream =
      GetStreamDecryptionParameters c4Fetch c8Stream :=
  getStream_unencrypted failFetch c4Fetch c8Stream c8Playlist rfl rfl

/-- **C10** (confirmed).  The document-level cipher block is only a presence
gate: replacing its contents changes nothing in the output, and when the
first surviving segment declares no cipher block its emitted entry carries
the zero accumulator's empty method and nil key — nothing is inherited from
the document-level block. -/
theorem getStream_docKey_opaque (fetch : String → Except NhlError (List Byte))
    (raw : String) (u : URL) (bw : Nat) (pl : MediaPlaylist) (K K' : MediaKey)
    (i : Nat) (seg : MediaSegment) (rest : List (Nat × MediaSegment))
    (hsurv : survivors pl.segments = (i, seg) :: rest) (hk : seg.key = none) :
    GetStreamDecryptionParameters fetch ⟨raw, .media { pl with key := some K }, u, bw⟩ =
      GetStreamDecryptionParameters fetch ⟨raw, .media { pl with key := some K' }, u, bw⟩ ∧
    ((GetStreamDecryptionParameters fetch
        ⟨raw, .media { pl with key := some K }, u, bw⟩).1.getD 0 initParam).method = "" ∧
    ((GetStreamDecryptionParameters fetch
        ⟨raw, .media { pl with key := some K }, u, bw⟩).1.getD 0 initParam).key = none ∧
    (GetStreamDecryptionParameters fetch ⟨raw, .media { pl with key := some K }, u, bw⟩).1 ≠ [] := by
  have h1 := getStream_eq_deriveSurv fetch ⟨raw, .media { pl with key := some K }, u, bw⟩
    { pl with key := some K } K rfl rfl
  have h2 := getStream_eq_deriveSurv fetch ⟨raw, .media { pl with key := some K' }, u, bw⟩
    { pl with key := some K' } K' rfl rfl
  simp only at h1 h2
  rw [h1, h2, hsurv]
  have hh := deriveSurv_head_keyless fetch pl.seqNo initParam i seg rest hk
  exact ⟨rfl, by rw [hh.1]; rfl, by rw [hh.1]; rfl, hh.2⟩

theorem getStream_docKey_opaque_witness :
    survivors c10Playlist.segments = [(0, { uri := "s.ts", key := none })] ∧
    (GetStreamDecryptionParameters failFetch
        ⟨"", .media { c10Playlist with key := some ⟨"AES-128", "https://k/x", [1]⟩ },
          ⟨"https", "h", "/p/m", "q"⟩, 9⟩ =
      GetStreamDecryptionParameters failFetch
        ⟨"", .media { c10Playlist with key := some ⟨"OTHER", "https://k/y", [2]⟩ },
          ⟨"https", "h", "/p/m", "q"⟩, 9⟩) ∧
    ((GetStreamDecryptionParameters failFetch
        ⟨"", .media { c10Playlist with key := some ⟨"AES-128", "https://k/x", [1]⟩ },
          ⟨"https", "h", "/p/m", "q"⟩, 9⟩).1.getD 0 initParam).method = "" ∧
    ((GetStreamDecryptionParameters failFetch
        ⟨"", .media { c10Playlist with key := some ⟨"AES-128", "https://k/x", [1]⟩ },
          ⟨"https", "h", "/p/m", "q"⟩, 9⟩).1.getD 0 initParam).key = none := by
  have h := getStream_docKey_opaque failFetch "" ⟨"https", "h", "/p/m", "q"⟩ 9 c10Playlist
    ⟨"AES-128", "https://k/x", [1]⟩ ⟨"OTHER", "https://k/y", [2]⟩
    0 { uri := "s.ts", key := none } [] (by decide) rfl
  exact ⟨by decide, h.1, h.2.1, h.2.2.1⟩

/-- **C1** (counterexample).  The claim asserts the returned parameter list is
empty when a segment's key fetch fails; on this two-segment playlist, where
the second segment's key fetch fails, `GetStreamDecryptionParameters` returns
the `NetworkError` together with the one entry already derived for the first
segment — the Go named-return `return` keeps the partial slice. -/
theorem getStream_keyFetchFailure_counterexample :
    (GetStreamDecryptionParameters c1Fetch c1Stream).2 =
      some (.network "GetDecryptionParameters" "Expected a status code of 200" 404 "https://k/2") ∧
    (GetStreamDecryptionParameters c1Fetch c1Stream).1 =
      [{ method := "AES-128", sequence := 0, key := some [0xaa], iv := synthIV 0 }] ∧
    (GetStreamDecryptionParameters c1Fetch c1Stream).1 ≠ [] :=
  ⟨by decide, by decide, by decide⟩

/-- **C1** (amended).  When the transport GET for the `j`-th surviving
segment's key fails (and all earlier key fetches succeed), the call fails
with that transport error, and the returned list is exactly the sequence
derived from the surviving segments before the failing one — `j` entries,
not an empty list. -/
theorem getStream_keyFetchFailure (fetch : String → Except NhlError (List Byte))
    (sp : StreamPlaylist) (pl : MediaPlaylist) (K : MediaKey)
    (hm : sp.m3u8 = Playlist.media pl) (hK : pl.key = some K)
    (j : Nat) (kj : MediaKey) (e : NhlError)
    (hj : j < (survivors pl.segments).length)
    (hkey : ((survivors pl.segments).getD j dfltSurv).2.key = some kj)
    (hfail : fetch kj.uri = Except.error e)
    (hearlier : ∀ j' < j, ∀ kj',
      ((survivors pl.segments).getD j' dfltSurv).2.key = some kj' →
      ∃ body, fetch kj'.uri = Except.ok body) :
    GetStreamDecryptionParameters fetch sp =
      ((deriveSurv fetch pl.seqNo initParam ((survivors pl.segments).take j)).1, some e) ∧
    (deriveSurv fetch pl.seqNo initParam ((survivors pl.segments).take j)).2 = none ∧
    (GetStreamDecryptionParameters fetch sp).1.length = j := by
  rw [getStream_eq_deriveSurv fetch sp pl K hm hK]
  have h := deriveSurv_fail fetch pl.seqNo _ initParam j kj e hj hkey hfail hearlier
  refine ⟨h.1, h.2, ?_⟩
  rw [h.1]
  have hl := deriveSurv_noerr_length fetch pl.seqNo ((survivors pl.segments).take j)
    initParam h.2
  simp only [hl, List.length_take]
  omega

theorem getStream_keyFetchFailure_witness :
    (1 < (survivors c1Playlist.segments).length) ∧
    ((survivors c1Playlist.segments).getD 1 dfltSurv).2.key =
      some { method := "AES-128", uri := "https://k/2", iv := [] } ∧
    c1Fetch "https://k/2" =
      Except.error (.network "GetDecryptionParameters" "Expected a status code of 200" 404
        "https://k/2") ∧
    GetStreamDecryptionParameters c1Fetch c1Stream =
      ((deriveSurv c1Fetch c1Playlist.seqNo initParam ((survivors c1Playlist.segments).take 1)).1,
       some (.network "GetDecryptionParameters" "Expected a status code of 200" 404
        "https://k/2")) ∧
    (GetStreamDecryptionParameters c1Fetch c1Stream).1.length = 1 := by
  have h := getStream_keyFetchFailure c1Fetch c1Stream c1Playlist
    { method := "AES-128", uri := "https://k/doc", iv := [] } rfl rfl 1
    { method := "AES-128", uri := "https://k/2", iv := [] }
    (.network "GetDecryptionParameters" "Expected a status code of 200" 404 "https://k/2")
    (by decide) (by decide) (by decide)
    (by
      intro j' hj' kj' hkey'
      have hz : j' = 0 := by omega
      subst hz
      rw [show ((survivors c1Playlist.segments).getD 0 dfltSurv).2.key =
        some { method := "AES-128", uri := "https://k/1", iv := [] } from by decide] at hkey'
      injection hkey' with hkj
      subst hkj
      exact ⟨[0xaa], by decide⟩)
  exact ⟨by decide, by decide, by decide, h.1, h.2.2⟩

theorem lastIndexC_of_not_mem (c : Char) :
    ∀ l : List Char, c ∉ l → lastIndexC c l = -1 := by
  intro l
  induction l with
  | nil => intro _; rfl
  | cons x xs ih =>
    intro h
    have hx : x ≠ c := fun hxc => h (hxc ▸ List.mem_cons_self x xs)
    have hxs : c ∉ xs := fun hm => h (List.mem_cons_of_mem x hm)
    simp [lastIndexC, ih hxs, hx]

theorem lastIndexC_mem (c : Char) :
    ∀ l : List Char, c ∈ l →
      ∃ pre post : List Char, l = pre ++ c :: post ∧ c ∉ post ∧
        lastIndexC c l = pre.length := by
  intro l
  induction l with
  | nil => intro h; cases h
  | cons x xs ih =>
    intro h
    by_cases hx : c ∈ xs
    · obtain ⟨pre, post, h1, h2, h3⟩ := ih hx
      refine ⟨x :: pre, post, by rw [List.cons_append, h1], h2, ?_⟩
      simp only [lastIndexC, h3]
      rw [if_pos (by positivity)]
      simp only [List.length_cons]
      push_cast
      ring
    · have hxc : x = c := by
        rcases List.mem_cons.mp h with h' | h'
        · exact h'.symm
        · exact absurd h' hx
      refine ⟨[], xs, by rw [hxc]; rfl, hx, ?_⟩
      simp [lastIndexC, lastIndexC_of_not_mem c xs hx, hxc]

/-- **C6** (confirmed).  The URL join used by `GetPlaylistsFromURL` keeps the
base URL's scheme, host and raw query string, and replaces the path with the
base path up to and including its final slash, followed by the relative
reference.  (When the base path contains no slash at all the kept path is
empty; the claim's phrase "up to and including its final '/'" presupposes one
exists, hence the hypothesis.) -/
theorem joinURL_spec (B : URL) (R : String) (h : '/' ∈ B.path.toList) :
    (joinURL B R).scheme = B.scheme ∧ (joinURL B R).host = B.host ∧
    (joinURL B R).rawQuery = B.rawQuery ∧
    ∃ pre post : List Char, B.path.toList = pre ++ '/' :: post ∧ '/' ∉ post ∧
      (joinURL B R).path.toList = pre ++ '/' :: R.toList := by
  obtain ⟨pre, post, h1, h2, h3⟩ := lastIndexC_mem '/' B.path.toList h
  refine ⟨rfl, rfl, rfl, pre, post, h1, h2, ?_⟩
  show (String.mk ((B.path.toList).take (lastIndexC '/' B.path.toList + 1).toNat) ++ R).toList =
    pre ++ '/' :: R.toList
  rw [h3]
  have ht : ((pre.length : Int) + 1).toNat = pre.length + 1 := by omega
  rw [ht, h1, List.take_append_eq_append_take, List.take_of_length_le (by omega)]
  have h4 : pre.length + 1 - pre.length = 1 := by omega
  rw [h4]
  simp [String.toList]

theorem joinURL_spec_witness :
    ('/' ∈ ("/a/b/c.m3u8" : String).toList) ∧
    joinURL ⟨"https", "h", "/a/b/c.m3u8", "x=1"⟩ "seg0.ts" =
      ⟨"https", "h", "/a/b/seg0.ts", "x=1"⟩ ∧
    (∃ pre post : List Char,
      (URL.mk "https" "h" "/a/b/c.m3u8" "x=1").path.toList = pre ++ '/' :: post ∧
      '/' ∉ post ∧
      (joinURL ⟨"https", "h", "/a/b/c.m3u8", "x=1"⟩ "seg0.ts").path.toList =
        pre ++ '/' :: ("seg0.ts" : String).toList) :=
  ⟨by decide, by decide,
   (joinURL_spec ⟨"https", "h", "/a/b/c.m3u8", "x=1"⟩ "seg0.ts" (by decide)).2.2.2⟩

theorem stripKeyURI_safe (s : String) (h1 : s ≠ "") (h2 : s ≠ String.mk [quoteChar]) :
    stripKeyURI s = .ok (stripQuotesSpec s) := by
  have hlen0 : s.length ≠ 0 := by
    intro h0
    apply h1
    cases s with
    | mk l =>
      simp only [String.length] at h0
      simp at h0
      simp [h0]
  unfold stripKeyURI stripQuotesSpec
  rw [if_neg hlen0]
  by_cases hq : s.toList.headD quoteChar = quoteChar ∧ s.toList.getLastD quoteChar = quoteChar
  · rw [if_pos hq]
    by_cases hl1 : s.length = 1
    · exfalso
      apply h2
      have hlist : s.toList.length = 1 := hl1
      obtain ⟨c, hc⟩ := List.length_eq_one.mp hlist
      have hcq : c = quoteChar := by
        have hh := hq.1
        rw [hc] at hh
        simpa using hh
      calc s = String.mk s.toList := rfl
        _ = String.mk [quoteChar] := by rw [hc, hcq]
    · rw [if_neg hl1, if_pos ⟨by omega, hq.1, hq.2⟩]
  · rw [if_neg hq]
    have hng : ¬ (2 ≤ s.length ∧ s.toList.headD quoteChar = quoteChar ∧
        s.toList.getLastD quoteChar = quoteChar) := by
      intro hcon
      exact hq ⟨hcon.2.1, hcon.2.2⟩
    rw [if_neg hng]

theorem stripSegmentKey_safe (ok : Option MediaKey)
    (h : ∀ kb, ok = some kb → safeURI kb.uri) :
    stripSegmentKey ok = .ok (stripKeySpec ok) := by
  cases ok with
  | none => rfl
  | some kb =>
    have hs := h kb rfl
    simp [stripSegmentKey, stripKeySpec, stripKeyURI_safe kb.uri hs.1 hs.2]

theorem sanitizeSegments_safe (segs : List (Option MediaSegment))
    (h : ∀ s ∈ segs, ∀ seg, s = some seg → ∀ kb, seg.key = some kb → safeURI kb.uri) :
    sanitizeSegments segs =
      .ok (segs.map (Option.map fun seg => { seg with key := stripKeySpec seg.key })) := by
  induction segs with
  | nil => rfl
  | cons s rest ih =>
    have hrest := fun s' hs' => h s' (List.mem_cons_of_mem _ hs')
    have hhead : sanitizeSegmentEntry s =
        .ok (Option.map (fun seg => { seg with key := stripKeySpec seg.key }) s) := by
      cases s with
      | none => rfl
      | some seg =>
        simp [sanitizeSegmentEntry,
          stripSegmentKey_safe seg.key
            (fun kb hkb => h (some seg) (List.mem_cons_self _ _) seg rfl kb hkb)]
    simp [sanitizeSegments, hhead, ih hrest, Bind.bind, Except.bind, Pure.pure, Except.pure]

/-- **C7** (counterexample).  The claim says a key-URI value that does not
both start and end with a quote character is left unchanged; the empty
key-URI is such a value, yet media-document resolution faults on it (Go
indexes `URI[0]` with no length check) in both `GetPlaylistsFromURL`'s media
branch and `GetMediaPlaylist`, instead of leaving it unchanged. -/
theorem mediaResolution_quote_stripping_counterexample :
    sanitizeMediaPlaylist c9DocEmpty = .error .indexOutOfRange ∧
    GetMediaPlaylist_core c1Stream "" c9DocEmpty = .error .indexOutOfRange ∧
    GetPlaylistsFromURL_media cexURL "" c9DocEmpty = .error .indexOutOfRange :=
  ⟨by decide, by decide, by decide⟩

/-- **C7** (amended).  During media-document resolution, provided every
present key-URI is non-degenerate (non-empty and not a lone quote
character), the document-level and every surviving segment's key-URI is
sanitized exactly as the claim states — one leading and one trailing quote
removed when both are present, the value left unchanged otherwise — in both
`GetPlaylistsFromURL`'s media branch and `GetMediaPlaylist`.
(`stripQuotesSpec`/`sanitizeSpec` are the claim's words; the theorem equates
the code's sanitization with them.) -/
theorem mediaResolution_quote_stripping (master : StreamPlaylist) (u : URL)
    (response : String) (pl : MediaPlaylist)
    (hdoc : ∀ kb, pl.key = some kb → safeURI kb.uri)
    (hsegs : ∀ s ∈ pl.segments, ∀ seg, s = some seg → ∀ kb, seg.key = some kb →
      safeURI kb.uri) :
    sanitizeMediaPlaylist pl = .ok (sanitizeSpec pl) ∧
    GetMediaPlaylist_core master response pl =
      .ok { rawFile := response, m3u8 := .media (sanitizeSpec pl), url := master.url,
            bandwidth := master.bandwidth } ∧
    GetPlaylistsFromURL_media u response pl =
      .ok (sanitizeSpec pl,
        (sanitizeSpec pl).segments.filterMap fun s =>
          s.map (mkSegmentStream u response (sanitizeSpec pl))) := by
  have h1 : sanitizeMediaPlaylist pl = .ok (sanitizeSpec pl) := by
    simp [sanitizeMediaPlaylist, stripSegmentKey_safe pl.key hdoc,
      sanitizeSegments_safe pl.segments hsegs, sanitizeSpec, Bind.bind, Except.bind,
      Pure.pure, Except.pure]
  exact ⟨h1, by simp [GetMediaPlaylist_core, h1], by simp [GetPlaylistsFromURL_media, h1]⟩

theorem mediaResolution_quote_stripping_witness :
    sanitizeMediaPlaylist c7Playlist = .ok (sanitizeSpec c7Playlist) ∧
    (sanitizeSpec c7Playlist).key =
      some { method := "AES-128", uri := "https://k/key1", iv := [] } ∧
    (sanitizeSpec c7Playlist).segments =
      [some { uri := "s.ts",
              key := some { method := "AES-128", uri := "https://k/key2", iv := [] } }] := by
  have h := mediaResolution_quote_stripping c1Stream cexURL "" c7Playlist
    (by
      intro kb hkb
      rw [show c7Playlist.key = some c7DocKey from rfl] at hkb
      injection hkb with hkb
      rw [← hkb]
      exact ⟨by decide, by decide⟩)
    (by
      intro s hs seg hseg kb hkb
      rw [show c7Playlist.segments =
        [some (MediaSegment.mk "s.ts" (some c7SegKey))] from rfl] at hs
      rw [List.mem_singleton] at hs
      subst hs
      injection hseg with hseg
      rw [← hseg] at hkb
      injection hkb with hkb
      rw [← hkb]
      exact ⟨by decide, by decide⟩)
  exact ⟨h.1, by decide, by decide⟩

/-- **C9** (confirmed).  The quote-stripping sanitization is partial exactly
as the claim describes: on a playlist whose document-level or segment-level
cipher block carries an empty key-URI the code's `URI[0]` access faults
(index out of range), and on a key-URI consisting of a single quote
character the stripping slice `URI[1:0]` has its lower bound above its upper
bound (slice bounds fault); the embedding makes both error branches
reachable in `GetPlaylistsFromURL`'s media branch and in
`GetMediaPlaylist`. -/
theorem quoteStripping_fault_reachable :
    stripKeyURI "" = .error .indexOutOfRange ∧
    stripKeyURI (String.mk [quoteChar]) = .error .sliceBounds ∧
    GetPlaylistsFromURL_media cexURL "" c9DocQuote = .error .sliceBounds ∧
    GetMediaPlaylist_core c1Stream "" c9SegEmpty = .error .indexOutOfRange ∧
    GetPlaylistsFromURL_media cexURL "" c9SegQuote = .error .sliceBounds ∧
    GetMediaPlaylist_core c1Stream "" c9DocEmpty = .error .indexOutOfRange :=
  ⟨by decide, by decide, by decide, by decide, by decide, by decide⟩

section SortProofs

variable {α : Type} (k : α → Nat) (dflt : α)

theorem getD_append_length (A : List α) (y : α) (t : List α) :
    (A ++ y :: t).getD A.length dflt = y := by
  rw [List.getD_append_right A (y :: t) dflt A.length (le_refl _)]
  simp

theorem set_append_length (A : List α) (y z : α) (t : List α) :
    (A ++ y :: t).set A.length z = A ++ z :: t := by
  induction A with
  | nil => rfl
  | cons a A ih => simp [List.set, ih]

theorem swapL_adjacent (A : List α) (y z : α) (t : List α) :
    swapL dflt (A ++ y :: z :: t) (A.length + 1) A.length = A ++ z :: y :: t := by
  have hassoc : A ++ y :: z :: t = (A ++ [y]) ++ z :: t := by simp
  have hlen : A.length + 1 = (A ++ [y]).length := by simp
  have h1 : (A ++ y :: z :: t).getD (A.length + 1) dflt = z := by
    rw [hassoc, hlen, getD_append_length]
  have h2 : (A ++ y :: z :: t).getD A.length dflt = y := getD_append_length dflt A y (z :: t)
  show ((A ++ y :: z :: t).set (A.length + 1) ((A ++ y :: z :: t).getD A.length dflt)).set
      A.length ((A ++ y :: z :: t).getD (A.length + 1) dflt) = A ++ z :: y :: t
  rw [h1, h2]
  have h3 : (A ++ y :: z :: t).set (A.length + 1) y = A ++ y :: y :: t := by
    rw [hassoc, hlen, set_append_length]
    simp
  rw [h3, set_append_length]

theorem insFun_beats_last (x s : α) (hxs : k x > k s) :
    ∀ S : List α, insFun k x (S ++ [s]) = insFun k x S ++ [s] := by
  intro S
  induction S with
  | nil => simp [insFun, hxs]
  | cons y S ih =>
    by_cases hxy : k x > k y
    · simp [insFun, hxy]
    · simp [insFun, hxy, ih]

theorem insFun_of_all_ge (x : α) :
    ∀ S : List α, (∀ y ∈ S, ¬ k x > k y) → insFun k x S = S ++ [x] := by
  intro S
  induction S with
  | nil => intro _; rfl
  | cons y S ih =>
    intro h
    have hy : ¬ k x > k y := h y (List.mem_cons_self y S)
    simp only [insFun, if_neg hy]
    rw [ih fun z hz => h z (List.mem_cons_of_mem y hz)]
    rfl

theorem mem_insFun (x z : α) :
    ∀ S : List α, z ∈ insFun k x S ↔ z = x ∨ z ∈ S := by
  intro S
  induction S with
  | nil => simp [insFun]
  | cons y S ih =>
    by_cases hxy : k x > k y
    · simp [insFun, hxy]
    · simp only [insFun, if_neg hxy, List.mem_cons, ih]
      tauto

theorem insFun_length (x : α) :
    ∀ S : List α, (insFun k x S).length = S.length + 1 := by
  intro S
  induction S with
  | nil => rfl
  | cons y S ih =>
    by_cases hxy : k x > k y
    · simp [insFun, hxy]
    · simp [insFun, hxy, ih]

theorem insFun_sorted (x : α) :
    ∀ S : List α, List.Pairwise (fun p q => k q ≤ k p) S →
      List.Pairwise (fun p q => k q ≤ k p) (insFun k x S) := by
  intro S
  induction S with
  | nil => intro _; simp [insFun]
  | cons y S ih =>
    intro hS
    rw [List.pairwise_cons] at hS
    by_cases hxy : k x > k y
    · simp only [insFun, if_pos hxy]
      refine List.Pairwise.cons ?_ (List.Pairwise.cons hS.1 hS.2)
      intro z hz
      rcases List.mem_cons.mp hz with hzy | hzS
      · subst hzy; omega
      · have := hS.1 z hzS
        omega
    · simp only [insFun, if_neg hxy]
      refine List.Pairwise.cons ?_ (ih hS.2)
      intro z hz
      rcases (mem_insFun k x z S).mp hz with hzx | hzS
      · subst hzx; omega
      · exact hS.1 z hzS

end SortProofs

section SortProofs2

variable {α : Type} (k : α → Nat) (dflt : α)

theorem insSortInner_eq_insFun :
    ∀ S : List α, List.Pairwise (fun p q => k q ≤ k p) S →
      ∀ (x : α) (R : List α),
        insSortInner k dflt 0 S.length (S ++ x :: R) = insFun k x S ++ R := by
  intro S
  induction S using List.reverseRecOn with
  | nil => intro _ x R; rfl
  | append_singleton S' s ih =>
    intro hS x R
    have hgx : (S' ++ s :: x :: R).getD (S'.length + 1) dflt = x := by
      rw [show S' ++ s :: x :: R = (S' ++ [s]) ++ x :: R by simp,
        show S'.length + 1 = (S' ++ [s]).length by simp, getD_append_length]
    have hgs : (S' ++ s :: x :: R).getD S'.length dflt = s :=
      getD_append_length dflt S' s (x :: R)
    have hlen : (S' ++ [s]).length = S'.length + 1 := by simp
    have hl : (S' ++ [s]) ++ x :: R = S' ++ s :: x :: R := by simp
    rw [hlen, hl]
    show (if S'.length + 1 > 0 ∧
        k (sget dflt (S' ++ s :: x :: R) (S'.length + 1)) >
          k (sget dflt (S' ++ s :: x :: R) S'.length) then
        insSortInner k dflt 0 S'.length
          (swapL dflt (S' ++ s :: x :: R) (S'.length + 1) S'.length)
      else S' ++ s :: x :: R) = insFun k x (S' ++ [s]) ++ R
    unfold sget
    by_cases hcmp : k x > k s
    · rw [if_pos ⟨by omega, by rw [hgx, hgs]; exact hcmp⟩]
      rw [swapL_adjacent dflt S' s x R]
      have hS' : List.Pairwise (fun p q => k q ≤ k p) S' :=
        hS.sublist (List.sublist_append_left S' [s])
      rw [ih hS' x (s :: R)]
      rw [insFun_beats_last k x s hcmp S']
      simp
    · rw [if_neg (by
        intro hcon
        rw [hgx, hgs] at hcon
        exact hcmp hcon.2)]
      have hall : ∀ y ∈ S' ++ [s], ¬ k x > k y := by
        intro y hy
        rcases List.mem_append.mp hy with hyS | hys
        · have hrel := (List.pairwise_append.mp hS).2.2 y hyS s (List.mem_singleton_self s)
          omega
        · rw [List.mem_singleton.mp hys]
          exact hcmp
      rw [insFun_of_all_ge k x (S' ++ [s]) hall]
      simp

theorem insSortOuter_eq_insSortFun :
    ∀ (R S : List α) (fuel : Nat), List.Pairwise (fun p q => k q ≤ k p) S →
      R.length ≤ fuel →
      insSortOuter k dflt 0 (S.length + R.length) fuel S.length (S ++ R) =
        insSortFun k S R := by
  intro R
  induction R with
  | nil =>
    intro S fuel hS hf
    cases fuel with
    | zero => simp [insSortOuter, insSortFun]
    | succ f => simp [insSortOuter, insSortFun]
  | cons x R' ih =>
    intro S fuel hS hf
    cases fuel with
    | zero => simp at hf
    | succ f =>
      show (if S.length < S.length + (x :: R').length then
          insSortOuter k dflt 0 (S.length + (x :: R').length) f (S.length + 1)
            (insSortInner k dflt 0 S.length (S ++ x :: R'))
        else S ++ x :: R') = insSortFun k S (x :: R')
      rw [if_pos (by simp)]
      rw [insSortInner_eq_insFun k dflt S hS x R']
      have h1 : S.length + (x :: R').length = (insFun k x S).length + R'.length := by
        rw [insFun_length]
        simp
        omega
      have h2 : S.length + 1 = (insFun k x S).length := (insFun_length k x S).symm
      rw [h1, h2]
      rw [ih (insFun k x S) f (insFun_sorted k x S hS) (by simpa using Nat.le_of_succ_le_succ hf)]
      rfl

end SortProofs2

section SortProofs3

variable {α : Type} (k : α → Nat) (dflt : α)

theorem insertionSortGo_eq (y : α) (t : List α) :
    insertionSortGo k dflt (y :: t) 0 (y :: t).length = insSortFun k [] (y :: t) := by
  have h := insSortOuter_eq_insSortFun k dflt t [y] ([y].length + t.length)
    (List.pairwise_singleton _ y) (by simp)
  show insSortOuter k dflt 0 (y :: t).length (y :: t).length 1 (y :: t) =
    insSortFun k [] (y :: t)
  have hlen : (y :: t).length = [y].length + t.length := by simp [Nat.add_comm]
  rw [hlen]
  exact h

theorem insFun_filter (v : Nat) (x : α) :
    ∀ S : List α, List.Pairwise (fun p q => k q ≤ k p) S →
      (insFun k x S).filter (fun y => k y == v) =
        if k x = v then S.filter (fun y => k y == v) ++ [x]
        else S.filter (fun y => k y == v) := by
  intro S
  induction S with
  | nil =>
    intro _
    by_cases hxv : k x = v <;> simp [insFun, hxv]
  | cons y S ih =>
    intro hS
    rw [List.pairwise_cons] at hS
    by_cases hxy : k x > k y
    · simp only [insFun, if_pos hxy]
      by_cases hxv : k x = v
      · have hempty : (y :: S).filter (fun z => k z == v) = [] := by
          rw [List.filter_eq_nil_iff]
          intro z hz
          rcases List.mem_cons.mp hz with hzy | hzS
          · subst hzy; simp; omega
          · have := hS.1 z hzS; simp; omega
        simp [List.filter_cons, hxv, hempty]
      · simp [List.filter_cons, hxv]
    · simp only [insFun, if_neg hxy]
      by_cases hyv : k y = v <;> by_cases hxv : k x = v <;>
        simp [List.filter_cons, hyv, hxv, ih hS.2]

theorem insSortFun_filter (v : Nat) :
    ∀ (R S : List α), List.Pairwise (fun p q => k q ≤ k p) S →
      (insSortFun k S R).filter (fun y => k y == v) =
        S.filter (fun y => k y == v) ++ R.filter (fun y => k y == v) := by
  intro R
  induction R with
  | nil => intro S _; simp [insSortFun]
  | cons x R' ih =>
    intro S hS
    show (insSortFun k (insFun k x S) R').filter (fun y => k y == v) = _
    rw [ih (insFun k x S) (insFun_sorted k x S hS)]
    rw [insFun_filter k v x S hS]
    by_cases hxv : k x = v <;> simp [List.filter_cons, hxv]

theorem insSortFun_sorted :
    ∀ (R S : List α), List.Pairwise (fun p q => k q ≤ k p) S →
      List.Pairwise (fun p q => k q ≤ k p) (insSortFun k S R) := by
  intro R
  induction R with
  | nil => intro S hS; exact hS
  | cons x R' ih => intro S hS; exact ih _ (insFun_sorted k x S hS)

theorem sortGo_small (l : List α) (h : l.length ≤ 7) :
    List.Pairwise (fun p q => k q ≤ k p) (sortGo k dflt l) ∧
    ∀ v : Nat, (sortGo k dflt l).filter (fun y => k y == v) =
      l.filter (fun y => k y == v) := by
  have hs : sortGo k dflt l =
      quickSortGo k dflt (2 * maxDepthAux l.length l.length) l 0 l.length := rfl
  have hq : quickSortGo k dflt (2 * maxDepthAux l.length l.length) l 0 l.length =
      if l.length - 0 > 1 then insertionSortGo k dflt l 0 l.length else l := by
    rw [quickSortGo.eq_def]
    dsimp only
    rw [if_neg (by omega)]
  rw [hs, hq]
  by_cases h2 : l.length - 0 > 1
  · rw [if_pos h2]
    cases l with
    | nil => simp at h2
    | cons y t =>
      rw [insertionSortGo_eq]
      exact ⟨insSortFun_sorted k (y :: t) [] List.Pairwise.nil,
        fun v => by
          rw [insSortFun_filter k v (y :: t) [] List.Pairwise.nil]
          simp⟩
  · rw [if_neg h2]
    refine ⟨?_, fun v => rfl⟩
    cases l with
    | nil => exact List.Pairwise.nil
    | cons y t =>
      cases t with
      | nil => exact List.pairwise_singleton _ y
      | cons z t' => simp at h2

end SortProofs3

/-- **C2** (counterexample).  The claim asserts the sort is stable; on this
eight-variant master playlist the equal-bandwidth variants `a` (index 0) and
`b` (index 1) come out in the order `b`, `a`: the stdlib quicksort's
median-of-three pivot selection swaps `a` past `b` and never restores the
order, so the equal-bandwidth subsequence of the output differs from that of
the input. -/
theorem resolveMaster_stability_counterexample :
    (GetPlaylistsFromURL_master cexURL "raw" cexMaster).map
        (fun d => (d.bandwidth, d.url.path)) =
      [(8, "/x/g"), (7, "/x/d"), (6, "/x/c"), (5, "/x/b"), (5, "/x/a"), (3, "/x/e"),
       (2, "/x/f"), (1, "/x/h")] ∧
    (GetPlaylistsFromURL_master cexURL "raw" cexMaster).filter
        (fun d => d.bandwidth == 5) ≠
      (cexMaster.variants.map (mkVariantStream cexURL "raw" cexMaster)).filter
        (fun d => d.bandwidth == 5) :=
  ⟨by decide, by decide⟩

section SwapToolkit

variable {α : Type} (dflt : α)

theorem swapL_length (l : List α) (i j : Nat) :
    (swapL dflt l i j).length = l.length := by
  simp [swapL]

theorem sget_swapL_outside (l : List α) (i j m : Nat) (hmi : m ≠ i) (hmj : m ≠ j) :
    sget dflt (swapL dflt l i j) m = sget dflt l m := by
  unfold swapL sget
  simp only [List.getD_eq_getElem?_getD]
  rw [List.getElem?_set_ne (Ne.symm hmj), List.getElem?_set_ne (Ne.symm hmi)]

theorem sget_swapL (l : List α) (i j m : Nat) (hi : i < l.length) (hj : j < l.length) :
    sget dflt (swapL dflt l i j) m =
      if m = j then sget dflt l i
      else if m = i then sget dflt l j
      else sget dflt l m := by
  by_cases hmj : m = j
  · subst hmj
    unfold swapL sget
    simp only [List.getD_eq_getElem?_getD, if_pos rfl]
    rw [List.getElem?_set_eq_of_lt _ (by simpa using hj)]
    rfl
  · rw [if_neg hmj]
    by_cases hmi : m = i
    · subst hmi
      unfold swapL sget
      simp only [List.getD_eq_getElem?_getD, if_pos rfl]
      rw [List.getElem?_set_ne (Ne.symm hmj), List.getElem?_set_eq_of_lt _ hi]
      rfl
    · rw [if_neg hmi]
      exact sget_swapL_outside dflt l i j m hmi hmj

theorem swap_cons_perm :
    ∀ (t : List α) (j : Nat) (x : α), j < t.length →
      (t.getD j dflt :: t.set j x).Perm (x :: t) := by
  intro t
  induction t with
  | nil => intro j x hj; simp at hj
  | cons y t ih =>
    intro j x hj
    cases j with
    | zero =>
      simp only [List.getD_cons_zero, List.set]
      exact List.Perm.swap x y t
    | succ j' =>
      simp only [List.getD_cons_succ, List.set]
      have hj' : j' < t.length := by simpa using hj
      exact (List.Perm.swap y (t.getD j' dflt) (t.set j' x)).trans
        ((List.Perm.cons y (ih j' x hj')).trans (List.Perm.swap x y t))

theorem swapL_perm :
    ∀ (l : List α) (i j : Nat), i < l.length → j < l.length →
      (swapL dflt l i j).Perm l := by
  intro l
  induction l with
  | nil => intro i j hi; simp at hi
  | cons h t ih =>
    intro i j hi hj
    cases i with
    | zero =>
      cases j with
      | zero => simp [swapL, sget]
      | succ j' =>
        have hj' : j' < t.length := by simpa using hj
        show ((((h :: t).set 0 (sget dflt (h :: t) (j' + 1)))).set (j' + 1)
          (sget dflt (h :: t) 0)).Perm (h :: t)
        simp only [sget, List.getD_cons_succ, List.getD_cons_zero, List.set]
        exact swap_cons_perm dflt t j' h hj'
    | succ i' =>
      cases j with
      | zero =>
        have hi' : i' < t.length := by simpa using hi
        show ((((h :: t).set (i' + 1) (sget dflt (h :: t) 0))).set 0
          (sget dflt (h :: t) (i' + 1))).Perm (h :: t)
        simp only [sget, List.getD_cons_succ, List.getD_cons_zero, List.set]
        exact swap_cons_perm dflt t i' h hi'
      | succ j' =>
        have hi' : i' < t.length := by simpa using hi
        have hj' : j' < t.length := by simpa using hj
        show ((((h :: t).set (i' + 1) (sget dflt (h :: t) (j' + 1)))).set (j' + 1)
          (sget dflt (h :: t) (i' + 1))).Perm (h :: t)
        simp only [sget, List.getD_cons_succ, List.set]
        exact List.Perm.cons h (ih i' j' hi' hj')

end SwapToolkit

section SwapRangeToolkit

variable {α : Type} (dflt : α)

theorem swapRangeGo_length :
    ∀ (n a0 b0 : Nat) (l : List α), (swapRangeGo dflt a0 b0 n l).length = l.length := by
  intro n
  induction n with
  | zero => intro a0 b0 l; rfl
  | succ n' ih =>
    intro a0 b0 l
    show (swapRangeGo dflt (a0 + 1) (b0 + 1) n' (swapL dflt l a0 b0)).length = l.length
    rw [ih, swapL_length]

theorem swapRangeGo_perm :
    ∀ (n a0 b0 : Nat) (l : List α), a0 + n ≤ b0 → b0 + n ≤ l.length →
      (swapRangeGo dflt a0 b0 n l).Perm l := by
  intro n
  induction n with
  | zero => intro a0 b0 l _ _; exact List.Perm.refl l
  | succ n' ih =>
    intro a0 b0 l hab hbl
    show (swapRangeGo dflt (a0 + 1) (b0 + 1) n' (swapL dflt l a0 b0)).Perm l
    have ha0 : a0 < l.length := by omega
    have hb0 : b0 < l.length := by omega
    exact (ih (a0 + 1) (b0 + 1) (swapL dflt l a0 b0) (by omega)
      (by rw [swapL_length]; omega)).trans (swapL_perm dflt l a0 b0 ha0 hb0)

theorem sget_swapRangeGo :
    ∀ (n a0 b0 : Nat) (l : List α) (m : Nat), a0 + n ≤ b0 → b0 + n ≤ l.length →
      sget dflt (swapRangeGo dflt a0 b0 n l) m =
        if a0 ≤ m ∧ m < a0 + n then sget dflt l (b0 + (m - a0))
        else if b0 ≤ m ∧ m < b0 + n then sget dflt l (a0 + (m - b0))
        else sget dflt l m := by
  intro n
  induction n with
  | zero =>
    intro a0 b0 l m _ _
    rw [if_neg (by omega), if_neg (by omega)]
    rfl
  | succ n' ih =>
    intro a0 b0 l m hab hbl
    have ha0 : a0 < l.length := by omega
    have hb0 : b0 < l.length := by omega
    have hne : a0 < b0 := by omega
    show sget dflt (swapRangeGo dflt (a0 + 1) (b0 + 1) n' (swapL dflt l a0 b0)) m = _
    rw [ih (a0 + 1) (b0 + 1) (swapL dflt l a0 b0) m (by omega)
      (by rw [swapL_length]; omega)]
    by_cases h1 : a0 + 1 ≤ m ∧ m < a0 + 1 + n'
    · rw [if_pos h1, if_pos (by omega)]
      rw [sget_swapL dflt l a0 b0 _ ha0 hb0]
      rw [if_neg (by omega), if_neg (by omega)]
      congr 1
      omega
    · rw [if_neg h1]
      by_cases h2 : b0 + 1 ≤ m ∧ m < b0 + 1 + n'
      · rw [if_pos h2, if_neg (by omega), if_pos (by omega)]
        rw [sget_swapL dflt l a0 b0 _ ha0 hb0]
        rw [if_neg (by omega), if_neg (by omega)]
        congr 1
        omega
      · rw [if_neg h2]
        by_cases hma : m = a0
        · subst hma
          rw [if_pos (by omega)]
          rw [sget_swapL dflt l m b0 m ha0 hb0]
          rw [if_neg (by omega), if_pos rfl]
          congr 1
          omega
        · by_cases hmb : m = b0
          · subst hmb
            rw [if_neg (by omega), if_pos (by omega)]
            rw [sget_swapL dflt l a0 m m ha0 hb0]
            rw [if_pos rfl]
            congr 1
            omega
          · rw [if_neg (by omega), if_neg (by omega)]
            exact sget_swapL_outside dflt l a0 b0 m hma hmb

end SwapRangeToolkit

section MedianToolkit

variable {α : Type} (k : α → Nat) (dflt : α)

theorem medianOfThree_eq_condSwap (l : List α) (a b c : Nat) :
    medianOfThree k dflt l a b c =
      condSwap k dflt (condSwap k dflt (condSwap k dflt l a b) c a) a b := rfl

theorem condSwap_length (l : List α) (i j : Nat) :
    (condSwap k dflt l i j).length = l.length := by
  unfold condSwap
  split_ifs <;> simp [swapL_length]

theorem condSwap_perm (l : List α) (i j : Nat) (hi : i < l.length) (hj : j < l.length) :
    (condSwap k dflt l i j).Perm l := by
  unfold condSwap
  split_ifs with h
  · exact swapL_perm dflt l i j hi hj
  · exact List.Perm.refl l

theorem sget_condSwap_outside (l : List α) (i j m : Nat) (hmi : m ≠ i) (hmj : m ≠ j) :
    sget dflt (condSwap k dflt l i j) m = sget dflt l m := by
  unfold condSwap
  split_ifs with h
  · exact sget_swapL_outside dflt l i j m hmi hmj
  · rfl

theorem medianOfThree_length (l : List α) (a b c : Nat) :
    (medianOfThree k dflt l a b c).length = l.length := by
  rw [medianOfThree_eq_condSwap, condSwap_length, condSwap_length, condSwap_length]

theorem medianOfThree_perm (l : List α) (a b c : Nat)
    (ha : a < l.length) (hb : b < l.length) (hc : c < l.length) :
    (medianOfThree k dflt l a b c).Perm l := by
  rw [medianOfThree_eq_condSwap]
  have h1 : (condSwap k dflt l a b).length = l.length := condSwap_length k dflt l a b
  have h2 : (condSwap k dflt (condSwap k dflt l a b) c a).length = l.length := by
    rw [condSwap_length, h1]
  exact ((condSwap_perm k dflt _ a b (by omega) (by omega)).trans
    ((condSwap_perm k dflt _ c a (by omega) (by omega)).trans
      (condSwap_perm k dflt l a b ha hb)))

theorem sget_medianOfThree_outside (l : List α) (a b c m : Nat)
    (hma : m ≠ a) (hmb : m ≠ b) (hmc : m ≠ c) :
    sget dflt (medianOfThree k dflt l a b c) m = sget dflt l m := by
  rw [medianOfThree_eq_condSwap,
    sget_condSwap_outside k dflt _ a b m hma hmb,
    sget_condSwap_outside k dflt _ c a m hmc hma,
    sget_condSwap_outside k dflt _ a b m hma hmb]

end MedianToolkit

section RegionTransfer

variable {α : Type} (k : α → Nat) (dflt : α)

theorem region_decomp (l : List α) (a b : Nat) (hab : a ≤ b) :
    l = l.take a ++ ((l.drop a).take (b - a) ++ l.drop b) := by
  conv_lhs => rw [← List.take_append_drop a l]
  congr 1
  conv_lhs => rw [← List.take_append_drop (b - a) (l.drop a)]
  congr 1
  rw [List.drop_drop]
  congr 1
  omega

theorem region_getElem (l : List α) (a b m : Nat) (hma : a ≤ m) (hmb : m < b)
    (hb : b ≤ l.length) (hidx : m - a < ((l.drop a).take (b - a)).length) :
    ((l.drop a).take (b - a)).get ⟨m - a, hidx⟩ = sget dflt l m := by
  have h2 : ((l.drop a).take (b - a)).get ⟨m - a, hidx⟩ =
      ((l.drop a).take (b - a))[m - a] := rfl
  rw [h2, List.getElem_take, List.getElem_drop]
  unfold sget
  rw [List.getD_eq_getElem l dflt (by omega)]
  congr 1
  omega

theorem region_getElem_add (l : List α) (a b i : Nat) (hib : a + i < b)
    (hb : b ≤ l.length) (hidx : i < ((l.drop a).take (b - a)).length) :
    ((l.drop a).take (b - a)).get ⟨i, hidx⟩ = sget dflt l (a + i) := by
  have h2 : ((l.drop a).take (b - a)).get ⟨i, hidx⟩ =
      ((l.drop a).take (b - a))[i] := rfl
  rw [h2, List.getElem_take, List.getElem_drop]
  unfold sget
  rw [List.getD_eq_getElem l dflt (by omega)]

theorem region_value_transfer (P : Nat → Prop) (l l' : List α) (a b : Nat)
    (hab : a ≤ b) (hb : b ≤ l.length) (hlen : l'.length = l.length)
    (hperm : l'.Perm l)
    (hframe : ∀ m, m < a ∨ b ≤ m → sget dflt l' m = sget dflt l m)
    (hP : ∀ m, a ≤ m → m < b → P (k (sget dflt l m))) :
    ∀ m, a ≤ m → m < b → P (k (sget dflt l' m)) := by
  intro m hma hmb
  have hMlen : ((l.drop a).take (b - a)).length = b - a := by simp; omega
  have hM'len : ((l'.drop a).take (b - a)).length = b - a := by simp; omega
  have htake : l'.take a = l.take a := by
    apply List.ext_getElem (by simp [hlen])
    intro i h1 h2
    have hia : i < a := by simp at h1; omega
    rw [List.getElem_take, List.getElem_take]
    have hfr := hframe i (Or.inl hia)
    unfold sget at hfr
    rw [List.getD_eq_getElem l' dflt (by omega), List.getD_eq_getElem l dflt (by omega)] at hfr
    exact hfr
  have hdrop : l'.drop b = l.drop b := by
    apply List.ext_getElem (by simp [hlen])
    intro i h1 h2
    rw [List.getElem_drop, List.getElem_drop]
    have hfr := hframe (b + i) (Or.inr (by omega))
    unfold sget at hfr
    have hbi : b + i < l.length := by simp at h2; omega
    rw [List.getD_eq_getElem l' dflt (by omega), List.getD_eq_getElem l dflt (by omega)] at hfr
    exact hfr
  have hpermM : ((l'.drop a).take (b - a)).Perm ((l.drop a).take (b - a)) := by
    have hp := hperm
    rw [region_decomp l' a b hab, region_decomp l a b hab, htake, hdrop] at hp
    exact (List.perm_append_right_iff (l.drop b)).mp ((List.perm_append_left_iff (l.take a)).mp hp)
  have hidx' : m - a < ((l'.drop a).take (b - a)).length := by omega
  have hmem : sget dflt l' m ∈ (l'.drop a).take (b - a) := by
    rw [← region_getElem dflt l' a b m hma hmb (by omega) hidx']
    exact List.getElem_mem hidx'
  have hmemM : sget dflt l' m ∈ (l.drop a).take (b - a) := hpermM.mem_iff.mp hmem
  obtain ⟨i, hilen, hiv⟩ := List.mem_iff_getElem.mp hmemM
  have hMi : ((l.drop a).take (b - a)).get ⟨i, hilen⟩ = sget dflt l (a + i) :=
    region_getElem_add dflt l a b i (by omega) hb hilen
  have hiv2 : ((l.drop a).take (b - a)).get ⟨i, hilen⟩ = sget dflt l' m := by
    have h2 : ((l.drop a).take (b - a)).get ⟨i, hilen⟩ =
        ((l.drop a).take (b - a))[i] := rfl
    rw [h2]
    exact hiv
  have hPv : P (k (sget dflt l (a + i))) := hP (a + i) (by omega) (by omega)
  rw [← hMi] at hPv
  rw [hiv2] at hPv
  exact hPv

end RegionTransfer

section PivotLoopProof

variable {α : Type} (k : α → Nat) (dflt : α)

theorem pivotLoop_inv (lo hi pv : Nat) (l0 : List α) :
    ∀ (fuel : Nat) (l : List α) (a b c d : Nat),
      PivotInv k dflt lo hi pv l0 l a b c d → c - b ≤ fuel →
      ∀ (l' : List α) (a' b' c' d' : Nat),
        pivotLoop k dflt lo fuel (l, a, b, c, d) = (l', a', b', c', d') →
        PivotInv k dflt lo hi pv l0 l' a' b' c' d' ∧ b' = c' := by
  intro fuel
  induction fuel with
  | zero =>
    intro l a b c d hinv hfuel l' a' b' c' d' hres
    simp only [pivotLoop, Prod.mk.injEq] at hres
    obtain ⟨hl, hA, hB, hC, hD⟩ := hres
    subst hl; subst hA; subst hB; subst hC; subst hD
    exact ⟨hinv, by have := hinv.hbc; omega⟩
  | succ f ih =>
    intro l a b c d hinv hfuel l' a' b' c' d' hres
    obtain ⟨ha, hab, hbc, hcd, hd, hlen, hhi, hpivot, heqL, hgt, hlt, heqR, hperm, hframe⟩ :=
      hinv
    simp only [pivotLoop] at hres
    by_cases hguard : b < c
    case neg =>
      rw [if_neg hguard] at hres
      simp only [Prod.mk.injEq] at hres
      obtain ⟨hl, hA, hB, hC, hD⟩ := hres
      subst hl; subst hA; subst hB; subst hC; subst hD
      exact ⟨⟨ha, hab, hbc, hcd, hd, hlen, hhi, hpivot, heqL, hgt, hlt, heqR, hperm, hframe⟩,
        by omega⟩
    case pos =>
      rw [if_pos hguard] at hres
      have hloN : lo < l.length := by omega
      have haN : a < l.length := by omega
      have hbN : b < l.length := by omega
      have hcN : c - 1 < l.length := by omega
      have hdN : d - 1 < l.length := by omega
      by_cases h1 : k (sget dflt l b) > k (sget dflt l lo)
      · -- case 1: data[b] < pivot, advance b
        rw [if_pos h1] at hres
        rw [hpivot] at h1
        refine ih l a (b + 1) c d
          ⟨ha, by omega, by omega, hcd, hd, hlen, hhi, hpivot, heqL, ?_, hlt, heqR, hperm,
            hframe⟩ (by omega) l' a' b' c' d' hres
        intro i hi1 hi2
        rcases Nat.lt_or_ge i b with hib | hib
        · exact hgt i hi1 hib
        · have hieq : i = b := by omega
          subst hieq
          exact h1
      · rw [if_neg h1] at hres
        by_cases h2 : k (sget dflt l lo) > k (sget dflt l b)
        case neg =>
          -- case 2: data[b] = pivot, swap to left equal block
          rw [if_pos h2] at hres
          rw [hpivot] at h1 h2
          have hbeq : k (sget dflt l b) = pv := by omega
          have hs : ∀ m, sget dflt (swapL dflt l a b) m =
              if m = b then sget dflt l a else if m = a then sget dflt l b
              else sget dflt l m := fun m => sget_swapL dflt l a b m haN hbN
          refine ih (swapL dflt l a b) (a + 1) (b + 1) c d
            ⟨by omega, by omega, by omega, hcd, by omega,
             by rw [swapL_length]; exact hlen,
             by rw [swapL_length]; exact hhi, ?_, ?_, ?_, ?_, ?_, ?_, ?_⟩
            (by omega) l' a' b' c' d' hres
          · rw [hs lo, if_neg (by omega), if_neg (by omega)]
            exact hpivot
          · intro i hi1 hi2
            rw [hs i]
            split_ifs with hmb hma
            · have hba : b = a := by omega
              rw [hba] at hbeq
              exact hbeq
            · exact hbeq
            · exact heqL i hi1 (by omega)
          · intro i hi1 hi2
            rw [hs i]
            split_ifs with hmb hma
            · exact hgt a (le_refl a) (by omega)
            · exact absurd hma (by omega)
            · exact hgt i (by omega) (by omega)
          · intro i hi1 hi2
            rw [hs i, if_neg (by omega), if_neg (by omega)]
            exact hlt i hi1 hi2
          · intro i hi1 hi2
            rw [hs i, if_neg (by omega), if_neg (by omega)]
            exact heqR i hi1 hi2
          · exact (swapL_perm dflt l a b haN hbN).trans hperm
          · intro i hi
            rcases hi with hi | hi
            · rw [hs i, if_neg (by omega), if_neg (by omega)]
              exact hframe i (Or.inl hi)
            · rw [hs i, if_neg (by omega), if_neg (by omega)]
              exact hframe i (Or.inr hi)
        case pos =>
          rw [if_neg (not_not_intro h2)] at hres
          by_cases h3 : k (sget dflt l lo) > k (sget dflt l (c - 1))
          · -- case 3: data[c-1] > pivot, retreat c
            rw [if_pos h3] at hres
            rw [hpivot] at h3
            refine ih l a b (c - 1) d
              ⟨ha, hab, by omega, by omega, hd, hlen, hhi, hpivot, heqL, hgt, ?_, heqR,
                hperm, hframe⟩ (by omega) l' a' b' c' d' hres
            intro i hi1 hi2
            rcases Nat.lt_or_ge i c with hic | hic
            · have hieq : i = c - 1 := by omega
              subst hieq
              exact h3
            · exact hlt i hic hi2
          · rw [if_neg h3] at hres
            by_cases h4 : k (sget dflt l (c - 1)) > k (sget dflt l lo)
            case neg =>
              -- case 4: data[c-1] = pivot, swap to right equal block
              rw [if_pos h4] at hres
              rw [hpivot] at h3 h4
              have hceq : k (sget dflt l (c - 1)) = pv := by omega
              have hs : ∀ m, sget dflt (swapL dflt l (c - 1) (d - 1)) m =
                  if m = d - 1 then sget dflt l (c - 1)
                  else if m = c - 1 then sget dflt l (d - 1)
                  else sget dflt l m := fun m => sget_swapL dflt l (c - 1) (d - 1) m hcN hdN
              refine ih (swapL dflt l (c - 1) (d - 1)) a b (c - 1) (d - 1)
                ⟨ha, hab, by omega, by omega, by omega,
                 by rw [swapL_length]; exact hlen,
                 by rw [swapL_length]; exact hhi, ?_, ?_, ?_, ?_, ?_, ?_, ?_⟩
                (by omega) l' a' b' c' d' hres
              · rw [hs lo, if_neg (by omega), if_neg (by omega)]
                exact hpivot
              · intro i hi1 hi2
                rw [hs i, if_neg (by omega), if_neg (by omega)]
                exact heqL i hi1 hi2
              · intro i hi1 hi2
                rw [hs i, if_neg (by omega), if_neg (by omega)]
                exact hgt i hi1 hi2
              · intro i hi1 hi2
                rw [hs i]
                split_ifs with hmd hmc
                · exact absurd hmd (by omega)
                · exact hlt (d - 1) (by omega) (by omega)
                · exact hlt i (by omega) (by omega)
              · intro i hi1 hi2
                rw [hs i]
                split_ifs with hmd hmc
                · exact hceq
                · exact absurd hmc (by omega)
                · exact heqR i (by omega) hi2
              · exact (swapL_perm dflt l (c - 1) (d - 1) hcN hdN).trans hperm
              · intro i hi
                rcases hi with hi | hi
                · rw [hs i, if_neg (by omega), if_neg (by omega)]
                  exact hframe i (Or.inl hi)
                · rw [hs i, if_neg (by omega), if_neg (by omega)]
                  exact hframe i (Or.inr hi)
            case pos =>
              -- case 5: data[b] > pivot and data[c-1] < pivot, exchange them
              rw [if_neg (not_not_intro h4)] at hres
              rw [hpivot] at h1 h2 h3 h4
              have hblt : k (sget dflt l b) < pv := by omega
              have hcgt : k (sget dflt l (c - 1)) > pv := by omega
              have hbne : b ≠ c - 1 := by
                intro hbe
                rw [hbe] at hblt
                omega
              have hblt' : b < c - 1 := by omega
              have hs : ∀ m, sget dflt (swapL dflt l b (c - 1)) m =
                  if m = c - 1 then sget dflt l b
                  else if m = b then sget dflt l (c - 1)
                  else sget dflt l m := fun m => sget_swapL dflt l b (c - 1) m hbN hcN
              refine ih (swapL dflt l b (c - 1)) a (b + 1) (c - 1) d
                ⟨ha, by omega, by omega, by omega, hd,
                 by rw [swapL_length]; exact hlen,
                 by rw [swapL_length]; exact hhi, ?_, ?_, ?_, ?_, ?_, ?_, ?_⟩
                (by omega) l' a' b' c' d' hres
              · rw [hs lo, if_neg (by omega), if_neg (by omega)]
                exact hpivot
              · intro i hi1 hi2
                rw [hs i, if_neg (by omega), if_neg (by omega)]
                exact heqL i hi1 hi2
              · intro i hi1 hi2
                rw [hs i]
                split_ifs with hmc hmb
                · exact absurd hmc (by omega)
                · exact hcgt
                · exact hgt i hi1 (by omega)
              · intro i hi1 hi2
                rw [hs i]
                split_ifs with hmc hmb
                · exact hblt
                · exact absurd hmb (by omega)
                · exact hlt i (by omega) hi2
              · intro i hi1 hi2
                rw [hs i, if_neg (by omega), if_neg (by omega)]
                exact heqR i hi1 hi2
              · exact (swapL_perm dflt l b (c - 1) hbN hcN).trans hperm
              · intro i hi
                rcases hi with hi | hi
                · rw [hs i, if_neg (by omega), if_neg (by omega)]
                  exact hframe i (Or.inl hi)
                · rw [hs i, if_neg (by omega), if_neg (by omega)]
                  exact hframe i (Or.inr hi)

end PivotLoopProof

section PrePivotProof

variable {α : Type} (k : α → Nat) (dflt : α)

theorem doPivot_eq_pivotLoop (l : List α) (lo hi : Nat) :
    doPivot k dflt l lo hi =
      match pivotLoop k dflt lo (hi - lo + 1)
          (prePivot k dflt l lo hi, lo + 1, lo + 1, hi, hi) with
      | (l2, a, b, c, d) =>
        (swapRangeGo dflt c (hi - min (hi - d) (d - c)) (min (hi - d) (d - c))
          (swapRangeGo dflt lo (b - min (b - a) (a - lo)) (min (b - a) (a - lo)) l2),
         lo + (b - a), hi - (d - c)) := rfl

theorem prePivot_length (l : List α) (lo hi : Nat) :
    (prePivot k dflt l lo hi).length = l.length := by
  unfold prePivot
  dsimp only
  split_ifs <;> simp [medianOfThree_length]

theorem prePivot_perm (l : List α) (lo hi : Nat) (hlo : lo < hi) (hhi : hi ≤ l.length) :
    (prePivot k dflt l lo hi).Perm l := by
  unfold prePivot
  dsimp only
  split_ifs with h40
  · have h1 : (medianOfThree k dflt l lo (lo + (hi - lo) / 8) (lo + 2 * ((hi - lo) / 8))).length
        = l.length := medianOfThree_length k dflt _ _ _ _
    have h2 : (medianOfThree k dflt
        (medianOfThree k dflt l lo (lo + (hi - lo) / 8) (lo + 2 * ((hi - lo) / 8)))
        (lo + (hi - lo) / 2) (lo + (hi - lo) / 2 - (hi - lo) / 8)
        (lo + (hi - lo) / 2 + (hi - lo) / 8)).length = l.length := by
      rw [medianOfThree_length, h1]
    have h3 : (medianOfThree k dflt
        (medianOfThree k dflt
          (medianOfThree k dflt l lo (lo + (hi - lo) / 8) (lo + 2 * ((hi - lo) / 8)))
          (lo + (hi - lo) / 2) (lo + (hi - lo) / 2 - (hi - lo) / 8)
          (lo + (hi - lo) / 2 + (hi - lo) / 8))
        (hi - 1) (hi - 1 - (hi - lo) / 8) (hi - 1 - 2 * ((hi - lo) / 8))).length = l.length := by
      rw [medianOfThree_length, h2]
    exact (medianOfThree_perm k dflt _ _ _ _ (by omega) (by omega) (by omega)).trans
      ((medianOfThree_perm k dflt _ _ _ _ (by omega) (by omega) (by omega)).trans
        ((medianOfThree_perm k dflt _ _ _ _ (by omega) (by omega) (by omega)).trans
          (medianOfThree_perm k dflt _ _ _ _ (by omega) (by omega) (by omega))))
  · exact medianOfThree_perm k dflt _ _ _ _ (by omega) (by omega) (by omega)

theorem prePivot_frame (l : List α) (lo hi : Nat) (hlo : lo < hi) (i : Nat)
    (hout : i < lo ∨ hi ≤ i) :
    sget dflt (prePivot k dflt l lo hi) i = sget dflt l i := by
  unfold prePivot
  dsimp only
  split_ifs with h40
  · rw [sget_medianOfThree_outside k dflt _ _ _ _ _ (by omega) (by omega) (by omega),
      sget_medianOfThree_outside k dflt _ _ _ _ _ (by omega) (by omega) (by omega),
      sget_medianOfThree_outside k dflt _ _ _ _ _ (by omega) (by omega) (by omega),
      sget_medianOfThree_outside k dflt _ _ _ _ _ (by omega) (by omega) (by omega)]
  · rw [sget_medianOfThree_outside k dflt _ _ _ _ _ (by omega) (by omega) (by omega)]

end PrePivotProof

section DoPivotProof

variable {α : Type} (k : α → Nat) (dflt : α)

theorem doPivot_eq_blocks (l : List α) (lo hi : Nat) (lp : List α) (ap bp cp dp : Nat)
    (hpl : pivotLoop k dflt lo (hi - lo + 1)
      (prePivot k dflt l lo hi, lo + 1, lo + 1, hi, hi) = (lp, ap, bp, cp, dp)) :
    doPivot k dflt l lo hi =
      (swapRangeGo dflt cp (hi - min (hi - dp) (dp - cp)) (min (hi - dp) (dp - cp))
        (swapRangeGo dflt lo (bp - min (bp - ap) (ap - lo)) (min (bp - ap) (ap - lo)) lp),
       lo + (bp - ap), hi - (dp - cp)) := by
  rw [doPivot_eq_pivotLoop, hpl]

theorem doPivot_spec (l : List α) (lo hi : Nat) (hlo : lo < hi) (hhi0 : hi ≤ l.length)
    (l' : List α) (mlo mhi : Nat) (hres : doPivot k dflt l lo hi = (l', mlo, mhi)) :
    l'.length = l.length ∧ l'.Perm l ∧
    (∀ i, i < lo ∨ hi ≤ i → sget dflt l' i = sget dflt l i) ∧
    lo ≤ mlo ∧ mlo < hi ∧ lo < mhi ∧ mhi ≤ hi ∧ mlo ≤ mhi ∧
    ∃ pv, (∀ i, lo ≤ i → i < mlo → k (sget dflt l' i) > pv) ∧
      (∀ i, mlo ≤ i → i < mhi → k (sget dflt l' i) = pv) ∧
      (∀ i, mhi ≤ i → i < hi → k (sget dflt l' i) < pv) := by
  have hl1len : (prePivot k dflt l lo hi).length = l.length := prePivot_length k dflt l lo hi
  have hl1perm : (prePivot k dflt l lo hi).Perm l := prePivot_perm k dflt l lo hi hlo hhi0
  have hinit : PivotInv k dflt lo hi (k (sget dflt (prePivot k dflt l lo hi) lo))
      (prePivot k dflt l lo hi) (prePivot k dflt l lo hi) (lo + 1) (lo + 1) hi hi :=
    ⟨le_refl _, le_refl _, by omega, le_refl _, le_refl _, rfl,
      by rw [hl1len]; exact hhi0, rfl,
      fun i h1 h2 => absurd h2 (by omega), fun i h1 h2 => absurd h2 (by omega),
      fun i h1 h2 => absurd h2 (by omega), fun i h1 h2 => absurd h2 (by omega),
      List.Perm.refl _, fun i _ => rfl⟩
  rcases hpl : pivotLoop k dflt lo (hi - lo + 1)
      (prePivot k dflt l lo hi, lo + 1, lo + 1, hi, hi) with ⟨lp, ap, bp, cp, dp⟩
  obtain ⟨hinv, hbceq⟩ := pivotLoop_inv k dflt lo hi
    (k (sget dflt (prePivot k dflt l lo hi) lo)) (prePivot k dflt l lo hi)
    (hi - lo + 1) (prePivot k dflt l lo hi) (lo + 1) (lo + 1) hi hi hinit (by omega)
    lp ap bp cp dp hpl
  rw [doPivot_eq_blocks k dflt l lo hi lp ap bp cp dp hpl] at hres
  obtain ⟨ha, hab, hbc, hcd, hd, hlen, hhiL, hpivot, heqL, hgt, hlt, heqR, hperm, hframe⟩ :=
    hinv
  subst hbceq
  simp only [Prod.mk.injEq] at hres
  obtain ⟨hX, hmlo, hmhi⟩ := hres
  subst hX
  subst hmlo
  subst hmhi
  set pv := k (sget dflt (prePivot k dflt l lo hi) lo) with hpv
  set n1 := min (bp - ap) (ap - lo) with hn1
  set n2 := min (hi - dp) (dp - bp) with hn2
  set lq := swapRangeGo dflt lo (bp - n1) n1 lp with hlq
  set lr := swapRangeGo dflt bp (hi - n2) n2 lq with hlr
  have hlqlen : lq.length = lp.length := by
    rw [hlq]; exact swapRangeGo_length dflt n1 lo (bp - n1) lp
  have hq : ∀ m, sget dflt lq m =
      if lo ≤ m ∧ m < lo + n1 then sget dflt lp (bp - n1 + (m - lo))
      else if bp - n1 ≤ m ∧ m < bp - n1 + n1 then sget dflt lp (lo + (m - (bp - n1)))
      else sget dflt lp m := by
    intro m
    rw [hlq]
    exact sget_swapRangeGo dflt n1 lo (bp - n1) lp m (by omega) (by omega)
  have hleftEq : ∀ i, lo ≤ i → i < ap → k (sget dflt lp i) = pv := by
    intro i h1 h2
    rcases Nat.eq_or_lt_of_le h1 with he | h3
    · rw [← he]; exact hpivot
    · exact heqL i (by omega) h2
  have hqgt : ∀ i, lo ≤ i → i < lo + (bp - ap) → k (sget dflt lq i) > pv := by
    intro i h1 h2
    rw [hq i]
    split_ifs with hc1 hc2
    · exact hgt _ (by omega) (by omega)
    · exfalso; omega
    · exact hgt _ (by omega) (by omega)
  have hqeq1 : ∀ i, lo + (bp - ap) ≤ i → i < bp → k (sget dflt lq i) = pv := by
    intro i h1 h2
    rw [hq i]
    split_ifs with hc1 hc2
    · exfalso; omega
    · exact hleftEq _ (by omega) (by omega)
    · exact hleftEq _ (by omega) (by omega)
  have hqrest : ∀ m, m < lo ∨ bp ≤ m → sget dflt lq m = sget dflt lp m := by
    intro m hm
    rw [hq m, if_neg (by omega), if_neg (by omega)]
  have hqlt : ∀ i, bp ≤ i → i < dp → k (sget dflt lq i) < pv := by
    intro i h1 h2
    rw [hqrest i (Or.inr h1)]
    exact hlt i h1 h2
  have hqeqR : ∀ i, dp ≤ i → i < hi → k (sget dflt lq i) = pv := by
    intro i h1 h2
    rw [hqrest i (Or.inr (by omega))]
    exact heqR i h1 h2
  have hr : ∀ m, sget dflt lr m =
      if bp ≤ m ∧ m < bp + n2 then sget dflt lq (hi - n2 + (m - bp))
      else if hi - n2 ≤ m ∧ m < hi - n2 + n2 then sget dflt lq (bp + (m - (hi - n2)))
      else sget dflt lq m := by
    intro m
    rw [hlr]
    exact sget_swapRangeGo dflt n2 bp (hi - n2) lq m (by omega) (by omega)
  have hrgt : ∀ i, lo ≤ i → i < lo + (bp - ap) → k (sget dflt lr i) > pv := by
    intro i h1 h2
    rw [hr i, if_neg (by omega), if_neg (by omega)]
    exact hqgt i h1 h2
  have hreq : ∀ i, lo + (bp - ap) ≤ i → i < hi - (dp - bp) → k (sget dflt lr i) = pv := by
    intro i h1 h2
    by_cases hcase : i < bp
    · rw [hr i, if_neg (by omega), if_neg (by omega)]
      exact hqeq1 i h1 hcase
    · rw [hr i]
      split_ifs with hc1 hc2
      · exact hqeqR _ (by omega) (by omega)
      · exfalso; omega
      · exact hqeqR _ (by omega) (by omega)
  have hrlt : ∀ i, hi - (dp - bp) ≤ i → i < hi → k (sget dflt lr i) < pv := by
    intro i h1 h2
    rw [hr i]
    split_ifs with hc1 hc2
    · exfalso; omega
    · exact hqlt _ (by omega) (by omega)
    · exact hqlt _ (by omega) (by omega)
  have hrframe : ∀ i, i < lo ∨ hi ≤ i → sget dflt lr i = sget dflt l i := by
    intro i hi2
    rw [hr i, if_neg (by omega), if_neg (by omega), hqrest i (by omega),
      hframe i hi2, prePivot_frame k dflt l lo hi hlo i hi2]
  have hrlen : lr.length = l.length := by
    rw [hlr, swapRangeGo_length, hlq, swapRangeGo_length, hlen, hl1len]
  have hqperm : lq.Perm lp := by
    rw [hlq]
    exact swapRangeGo_perm dflt n1 lo (bp - n1) lp (by omega) (by omega)
  have hrperm : lr.Perm l := by
    rw [hlr]
    exact (swapRangeGo_perm dflt n2 bp (hi - n2) lq (by omega) (by omega)).trans
      (hqperm.trans (hperm.trans hl1perm))
  exact ⟨hrlen, hrperm, hrframe, by omega, by omega, by omega, by omega, by omega,
    pv, hrgt, hreq, hrlt⟩

end DoPivotProof

section HeapDescFacts

theorem descH_refl (r : Nat) : DescH r r := ⟨0, rfl⟩

theorem descH_le (r m : Nat) (h : DescH r m) : r ≤ m := by
  obtain ⟨t, ht⟩ := h
  rw [Nat.shiftRight_eq_div_pow] at ht
  have := Nat.div_le_self (m + 1) (2 ^ t)
  omega

theorem descH_child (r c : Nat) (hc : c = 2 * r + 1 ∨ c = 2 * r + 2) : DescH r c := by
  refine ⟨1, ?_⟩
  rw [Nat.shiftRight_eq_div_pow, pow_one]
  rcases hc with h | h <;> omega

theorem descH_trans_child (r c m : Nat) (hc : c = 2 * r + 1 ∨ c = 2 * r + 2)
    (h : DescH c m) : DescH r m := by
  obtain ⟨t, ht⟩ := h
  refine ⟨t + 1, ?_⟩
  rw [Nat.shiftRight_add, ht, Nat.shiftRight_eq_div_pow, pow_one]
  rcases hc with h2 | h2 <;> omega

theorem descH_of_child (r j c : Nat) (hnj : ¬ DescH r j) (hc : c = 2 * j + 1 ∨ c = 2 * j + 2)
    (h : DescH r c) : c = r := by
  obtain ⟨t, ht⟩ := h
  cases t with
  | zero =>
    simp only [Nat.shiftRight_zero] at ht
    omega
  | succ t2 =>
    exfalso
    apply hnj
    have h1 : (c + 1) >>> (t2 + 1) = ((c + 1) >>> 1) >>> t2 := by
      rw [Nat.add_comm t2 1]
      exact Nat.shiftRight_add (c + 1) 1 t2
    have h2 : (c + 1) >>> 1 = j + 1 := by
      rw [Nat.shiftRight_eq_div_pow, pow_one]
      rcases hc with h3 | h3 <;> omega
    rw [h1, h2] at ht
    exact ⟨t2, ht⟩

end HeapDescFacts

section SiftDownProof

variable {α : Type} (k : α → Nat) (dflt : α)

theorem siftDownGo_spec (f hi : Nat) :
    ∀ (fuel root : Nat) (l : List α), f + hi ≤ l.length → hi - root ≤ fuel →
      PartialHeapP k dflt f (root + 1) hi l →
      ∀ l', siftDownGo k dflt f hi fuel root l = l' →
        l'.length = l.length ∧ l'.Perm l ∧
        (∀ p, p < f → sget dflt l' p = sget dflt l p) ∧
        (∀ m, hi ≤ m → sget dflt l' (f + m) = sget dflt l (f + m)) ∧
        (∀ m, ¬ DescH root m → sget dflt l' (f + m) = sget dflt l (f + m)) ∧
        PartialHeapP k dflt f root hi l' ∧
        (k (sget dflt l' (f + root)) = k (sget dflt l (f + root)) ∨
          ∃ c, (c = 2 * root + 1 ∨ c = 2 * root + 2) ∧ c < hi ∧
            k (sget dflt l' (f + root)) = k (sget dflt l (f + c))) := by
  intro fuel
  induction fuel with
  | zero =>
    intro root l hlen0 hfuel hsub l' hres
    simp only [siftDownGo] at hres
    subst hres
    refine ⟨rfl, List.Perm.refl l, fun p _ => rfl, fun m _ => rfl, fun m _ => rfl, ?_,
      Or.inl rfl⟩
    intro j c hj hc hcc
    exact absurd hc (by rcases hcc with h | h <;> omega)
  | succ fuel ih =>
    intro root l hlen0 hfuel hsub l' hres
    simp only [siftDownGo] at hres
    by_cases hguard : 2 * root + 1 ≥ hi
    · rw [if_pos hguard] at hres
      subst hres
      refine ⟨rfl, List.Perm.refl l, fun p _ => rfl, fun m _ => rfl, fun m _ => rfl, ?_,
        Or.inl rfl⟩
      intro j c hj hc hcc
      rcases Nat.eq_or_lt_of_le hj with hjr | hjr
      · exact absurd hc (by rcases hcc with h | h <;> omega)
      · exact hsub j c hjr hc hcc
    · rw [if_neg hguard] at hres
      have hchild1 : 2 * root + 1 < hi := by omega
      have swapCase : ∀ cs : Nat, (cs = 2 * root + 1 ∨ cs = 2 * root + 2) → cs < hi →
          (∀ oc, (oc = 2 * root + 1 ∨ oc = 2 * root + 2) → oc < hi →
            k (sget dflt l (f + cs)) ≤ k (sget dflt l (f + oc))) →
          k (sget dflt l (f + cs)) < k (sget dflt l (f + root)) →
          siftDownGo k dflt f hi fuel cs (swapL dflt l (f + root) (f + cs)) = l' →
          l'.length = l.length ∧ l'.Perm l ∧
          (∀ p, p < f → sget dflt l' p = sget dflt l p) ∧
          (∀ m, hi ≤ m → sget dflt l' (f + m) = sget dflt l (f + m)) ∧
          (∀ m, ¬ DescH root m → sget dflt l' (f + m) = sget dflt l (f + m)) ∧
          PartialHeapP k dflt f root hi l' ∧
          (k (sget dflt l' (f + root)) = k (sget dflt l (f + root)) ∨
            ∃ c, (c = 2 * root + 1 ∨ c = 2 * root + 2) ∧ c < hi ∧
              k (sget dflt l' (f + root)) = k (sget dflt l (f + c))) := by
        intro cs hcs hcshi hmin hswap hres2
        have hcsge : 2 * root + 1 ≤ cs := by rcases hcs with h | h <;> omega
        have hcsle : cs ≤ 2 * root + 2 := by rcases hcs with h | h <;> omega
        have hidx : f + root < l.length := by omega
        have hidxc : f + cs < l.length := by omega
        set l₁ := swapL dflt l (f + root) (f + cs) with hl₁
        have hg1 : ∀ m, sget dflt l₁ m =
            if m = f + cs then sget dflt l (f + root)
            else if m = f + root then sget dflt l (f + cs)
            else sget dflt l m := by
          intro m
          rw [hl₁]
          exact sget_swapL dflt l (f + root) (f + cs) m hidx hidxc
        have hl₁len : l₁.length = l.length := by
          rw [hl₁]
          exact swapL_length dflt l _ _
        have hl₁perm : l₁.Perm l := by
          rw [hl₁]
          exact swapL_perm dflt l (f + root) (f + cs) hidx hidxc
        have hsub1 : PartialHeapP k dflt f (cs + 1) hi l₁ := by
          intro j c hj hc hcc
          have hcge : 2 * j + 1 ≤ c := by rcases hcc with h | h <;> omega
          rw [hg1 (f + j), hg1 (f + c), if_neg (by omega), if_neg (by omega),
            if_neg (by omega), if_neg (by omega)]
          exact hsub j c (by omega) hc hcc
        obtain ⟨hlen2, hperm2, hpf2, hphi2, hframe2, hpairs2, hrootval2⟩ :=
          ih cs l₁ (by omega) (by omega) hsub1 l' hres2
        have hndroot : ¬ DescH cs root := fun h => absurd (descH_le cs root h) (by omega)
        have hvroot : sget dflt l' (f + root) = sget dflt l (f + cs) := by
          rw [hframe2 root hndroot, hg1 (f + root), if_neg (by omega), if_pos rfl]
        refine ⟨hlen2.trans hl₁len, hperm2.trans hl₁perm, ?_, ?_, ?_, ?_, ?_⟩
        · intro p hp
          rw [hpf2 p hp, hg1 p, if_neg (by omega), if_neg (by omega)]
        · intro m hm
          rw [hphi2 m hm, hg1 (f + m), if_neg (by omega), if_neg (by omega)]
        · intro m hm
          have hmr : m ≠ root := fun h => hm (h ▸ descH_refl root)
          have hmcs : ¬ DescH cs m := fun h => hm (descH_trans_child root cs m hcs h)
          have hmcs2 : m ≠ cs := fun h => hmcs (h ▸ descH_refl cs)
          rw [hframe2 m hmcs, hg1 (f + m), if_neg (by omega), if_neg (by omega)]
        · intro j c hj hc hcc
          by_cases hjcs : cs ≤ j
          · exact hpairs2 j c hjcs hc hcc
          · have hndj : ¬ DescH cs j := fun h => absurd (descH_le cs j h) (by omega)
            by_cases hjr : j = root
            · rw [hjr] at hcc
              rw [hjr]
              by_cases hceq : c = cs
              · subst hceq
                rw [hvroot]
                rcases hrootval2 with h | ⟨cc, hcc2, hcchi, h⟩
                · rw [h, hg1 (f + c), if_pos rfl]
                  omega
                · have hccge : 2 * c + 1 ≤ cc := by rcases hcc2 with h2 | h2 <;> omega
                  rw [h, hg1 (f + cc), if_neg (by omega), if_neg (by omega)]
                  exact hsub c cc (by omega) hcchi hcc2
              · have hndc : ¬ DescH cs c := by
                  intro hdc
                  exact hceq (descH_of_child cs root c hndroot hcc hdc)
                have hcge2 : 2 * root + 1 ≤ c := by rcases hcc with h | h <;> omega
                rw [hvroot, hframe2 c hndc, hg1 (f + c), if_neg (by omega),
                  if_neg (by omega)]
                exact hmin c hcc hc
            · have hj2 : root < j := by omega
              have hcge : 2 * j + 1 ≤ c := by rcases hcc with h | h <;> omega
              have hndc : ¬ DescH cs c := by
                intro hdc
                have hres3 := descH_of_child cs j c hndj hcc hdc
                omega
              rw [hframe2 j hndj, hframe2 c hndc, hg1 (f + j), hg1 (f + c),
                if_neg (by omega), if_neg (by omega), if_neg (by omega), if_neg (by omega)]
              exact hsub j c hj2 hc hcc
        · exact Or.inr ⟨cs, hcs, hcshi, by rw [hvroot]⟩
      split_ifs at hres with hsel hstop1 hstop2
      · have he : 2 * root + 1 + 1 = 2 * root + 2 := by omega
        rw [he] at hres hstop1
        have he2 : f + (2 * root + 1) + 1 = f + (2 * root + 2) := by omega
        rw [he2] at hsel
        have hswap : k (sget dflt l (f + (2 * root + 2))) < k (sget dflt l (f + root)) :=
          hstop1
        refine swapCase (2 * root + 2) (Or.inr rfl) (by omega) ?_ hswap hres
        intro oc hoc hochi
        have hs2 := hsel.2
        rcases hoc with h | h <;> subst h
        · omega
        · exact le_refl _
      · subst hres
        have he : 2 * root + 1 + 1 = 2 * root + 2 := by omega
        rw [he] at hstop1
        have he2 : f + (2 * root + 1) + 1 = f + (2 * root + 2) := by omega
        rw [he2] at hsel
        refine ⟨rfl, List.Perm.refl l, fun p _ => rfl, fun m _ => rfl, fun m _ => rfl, ?_,
          Or.inl rfl⟩
        intro j c hj hc hcc
        rcases Nat.eq_or_lt_of_le hj with hjr | hjr
        · subst hjr
          have hs2 := hsel.2
          rcases hcc with h | h <;> subst h <;> omega
        · exact hsub j c hjr hc hcc
      · push_neg at hsel
        have he2 : f + (2 * root + 1) + 1 = f + (2 * root + 2) := by omega
        rw [he2] at hsel
        have hswap : k (sget dflt l (f + (2 * root + 1))) < k (sget dflt l (f + root)) :=
          hstop2
        refine swapCase (2 * root + 1) (Or.inl rfl) hchild1 ?_ hswap hres
        intro oc hoc hochi
        rcases hoc with h | h <;> subst h
        · exact le_refl _
        · exact hsel (by omega)
      · subst hres
        push_neg at hsel
        have he2 : f + (2 * root + 1) + 1 = f + (2 * root + 2) := by omega
        rw [he2] at hsel
        refine ⟨rfl, List.Perm.refl l, fun p _ => rfl, fun m _ => rfl, fun m _ => rfl, ?_,
          Or.inl rfl⟩
        intro j c hj hc hcc
        rcases Nat.eq_or_lt_of_le hj with hjr | hjr
        · subst hjr
          rcases hcc with h | h <;> subst h
          · omega
          · have hs := hsel (by omega)
            omega
        · exact hsub j c hjr hc hcc

end SiftDownProof

section HeapSortProof

variable {α : Type} (k : α → Nat) (dflt : α)

theorem heap_root_min (f n : Nat) (l : List α) (hh : PartialHeapP k dflt f 0 n l) :
    ∀ j, j < n → k (sget dflt l f) ≤ k (sget dflt l (f + j)) := by
  intro j
  induction j using Nat.strong_induction_on with
  | _ j ih =>
    intro hj
    cases j with
    | zero => exact le_refl _
    | succ j2 =>
      have hpar : k (sget dflt l (f + j2 / 2)) ≤ k (sget dflt l (f + (j2 + 1))) :=
        hh (j2 / 2) (j2 + 1) (Nat.zero_le _) hj (by omega)
      exact le_trans (ih (j2 / 2) (by omega) (by omega)) hpar

theorem heapBuild_spec (f hi : Nat) :
    ∀ (cnt : Nat) (l : List α), f + hi ≤ l.length →
      PartialHeapP k dflt f cnt hi l →
      ∀ l', heapBuild k dflt f hi cnt l = l' →
        l'.length = l.length ∧ l'.Perm l ∧
        (∀ p, p < f ∨ f + hi ≤ p → sget dflt l' p = sget dflt l p) ∧
        PartialHeapP k dflt f 0 hi l' := by
  intro cnt
  induction cnt with
  | zero =>
    intro l hlen hph l' hres
    simp only [heapBuild] at hres
    subst hres
    exact ⟨rfl, List.Perm.refl l, fun p _ => rfl, hph⟩
  | succ cnt ih =>
    intro l hlen hph l' hres
    simp only [heapBuild] at hres
    obtain ⟨hlen2, hperm2, hpf2, hphi2, hframe2, hpairs2, hrootval2⟩ :=
      siftDownGo_spec k dflt f hi (hi + 1) cnt l hlen (by omega) hph
        (siftDownGo k dflt f hi (hi + 1) cnt l) rfl
    obtain ⟨hlen3, hperm3, hpf3, hheap3⟩ :=
      ih (siftDownGo k dflt f hi (hi + 1) cnt l) (by omega) hpairs2 l' hres
    refine ⟨hlen3.trans hlen2, hperm3.trans hperm2, ?_, hheap3⟩
    intro p hp
    rw [hpf3 p hp]
    rcases hp with hp | hp
    · exact hpf2 p hp
    · have he : p = f + (p - f) := by omega
      rw [he]
      exact hphi2 (p - f) (by omega)

theorem heapPop_spec (f hi : Nat) :
    ∀ (i : Nat) (l : List α), i ≤ hi → f + hi ≤ l.length →
      PartialHeapP k dflt f 0 i l →
      (∀ m m2, i ≤ m → m ≤ m2 → m2 < hi →
        k (sget dflt l (f + m2)) ≤ k (sget dflt l (f + m))) →
      (∀ j m, j < i → i ≤ m → m < hi →
        k (sget dflt l (f + m)) ≤ k (sget dflt l (f + j))) →
      ∀ l', heapPop k dflt f i l = l' →
        l'.length = l.length ∧ l'.Perm l ∧
        (∀ p, p < f ∨ f + i ≤ p → sget dflt l' p = sget dflt l p) ∧
        SortedRange k dflt l' f (f + hi) := by
  intro i
  induction i with
  | zero =>
    intro l hie hlen hheap hsuf hsep l' hres
    simp only [heapPop] at hres
    subst hres
    refine ⟨rfl, List.Perm.refl l, fun p _ => rfl, ?_⟩
    intro p q hp hpq hq
    have he1 : p = f + (p - f) := by omega
    have he2 : q = f + (q - f) := by omega
    rw [he1, he2]
    exact hsuf (p - f) (q - f) (by omega) (by omega) (by omega)
  | succ i ih =>
    intro l hie hlen hheap hsuf hsep l' hres
    simp only [heapPop] at hres
    have hf : f < l.length := by omega
    have hfi : f + i < l.length := by omega
    have hg2 : ∀ m, sget dflt (swapL dflt l f (f + i)) m =
        if m = f + i then sget dflt l f
        else if m = f then sget dflt l (f + i)
        else sget dflt l m := fun m => sget_swapL dflt l f (f + i) m hf hfi
    have hmin0 : ∀ j, j < i + 1 → k (sget dflt l f) ≤ k (sget dflt l (f + j)) :=
      heap_root_min k dflt f (i + 1) l hheap
    have hswaplen : (swapL dflt l f (f + i)).length = l.length := swapL_length dflt l _ _
    have hsub2 : PartialHeapP k dflt f 1 i (swapL dflt l f (f + i)) := by
      intro j c hj hc hcc
      have hcge : 2 * j + 1 ≤ c := by rcases hcc with h | h <;> omega
      rw [hg2 (f + j), hg2 (f + c), if_neg (by omega), if_neg (by omega),
        if_neg (by omega), if_neg (by omega)]
      exact hheap j c (Nat.zero_le _) (by omega) hcc
    obtain ⟨hlen2, hperm2, hpf2, hphi2, hframe2, hpairs2, hrootval2⟩ :=
      siftDownGo_spec k dflt f i (i + 1) 0 (swapL dflt l f (f + i)) (by omega) (by omega)
        hsub2 (siftDownGo k dflt f i (i + 1) 0 (swapL dflt l f (f + i))) rfl
    set l₃ := siftDownGo k dflt f i (i + 1) 0 (swapL dflt l f (f + i)) with hl₃
    have hsufval : ∀ m, i ≤ m → m < hi →
        sget dflt l₃ (f + m) =
          if m = i then sget dflt l f else sget dflt l (f + m) := by
      intro m hm hmhi
      rw [hphi2 m hm, hg2 (f + m)]
      by_cases hmi : m = i
      · rw [if_pos (by omega), if_pos hmi]
      · rw [if_neg (by omega), if_neg (by omega), if_neg hmi]
    have hsuf3 : ∀ m m2, i ≤ m → m ≤ m2 → m2 < hi →
        k (sget dflt l₃ (f + m2)) ≤ k (sget dflt l₃ (f + m)) := by
      intro m m2 hm hm2 hm2hi
      rw [hsufval m (by omega) (by omega), hsufval m2 (by omega) hm2hi]
      by_cases hmi : m = i
      · by_cases hm2i : m2 = i
        · rw [if_pos hmi, if_pos hm2i]
        · rw [if_pos hmi, if_neg hm2i]
          exact hsep 0 m2 (by omega) (by omega) hm2hi
      · rw [if_neg hmi, if_neg (by omega)]
        exact hsuf m m2 (by omega) hm2 hm2hi
    have hframe3 : ∀ m, m < f ∨ f + i ≤ m → sget dflt l₃ m = sget dflt (swapL dflt l f (f + i)) m := by
      intro m hm
      rcases hm with hm | hm
      · exact hpf2 m hm
      · have he : m = f + (m - f) := by omega
        rw [he]
        exact hphi2 (m - f) (by omega)
    have hsep3 : ∀ j m, j < i → i ≤ m → m < hi →
        k (sget dflt l₃ (f + m)) ≤ k (sget dflt l₃ (f + j)) := by
      intro j m hj hm hmhi
      have hP : ∀ q, f ≤ q → q < f + i →
          (∀ m2, i ≤ m2 → m2 < hi → k (sget dflt l₃ (f + m2)) ≤ k (sget dflt (swapL dflt l f (f + i)) q)) := by
        intro q hq hqi m2 hm2 hm2hi
        rw [hsufval m2 hm2 hm2hi, hg2 q, if_neg (show ¬ q = f + i by omega)]
        by_cases hq0 : q = f
        · rw [if_pos hq0]
          by_cases hm2i : m2 = i
          · rw [if_pos hm2i]
            exact hmin0 i (by omega)
          · rw [if_neg hm2i]
            exact hsep i m2 (by omega) (by omega) hm2hi
        · rw [if_neg hq0]
          have he : q = f + (q - f) := by omega
          rw [he]
          by_cases hm2i : m2 = i
          · rw [if_pos hm2i]
            exact hmin0 (q - f) (by omega)
          · rw [if_neg hm2i]
            exact hsep (q - f) m2 (by omega) (by omega) hm2hi
      have htrans := region_value_transfer k dflt
        (fun v => ∀ m2, i ≤ m2 → m2 < hi → k (sget dflt l₃ (f + m2)) ≤ v)
        (swapL dflt l f (f + i)) l₃ f (f + i) (by omega) (by omega)
        (by rw [hlen2, hswaplen]) hperm2 hframe3 hP
      exact htrans (f + j) (by omega) (by omega) m hm hmhi
    obtain ⟨hlenR, hpermR, hpfR, hsortR⟩ :=
      ih l₃ (by omega) (by rw [hlen2, hswaplen]; omega) hpairs2 hsuf3 hsep3 l' hres
    have hswapperm : (swapL dflt l f (f + i)).Perm l := swapL_perm dflt l f (f + i) hf hfi
    refine ⟨by rw [hlenR, hlen2, hswaplen], hpermR.trans (hperm2.trans hswapperm), ?_, hsortR⟩
    intro p hp
    have hstep : sget dflt l₃ p = sget dflt l p := by
      rcases hp with hp | hp
      · rw [hframe3 p (Or.inl hp), hg2 p, if_neg (by omega), if_neg (by omega)]
      · rw [hframe3 p (Or.inr (by omega)), hg2 p, if_neg (by omega), if_neg (by omega)]
    rcases hp with hp | hp
    · rw [hpfR p (Or.inl hp)]
      exact hstep
    · rw [hpfR p (Or.inr (by omega))]
      exact hstep

theorem heapSortGo_spec (l : List α) (a b : Nat) (hab : a ≤ b) (hb : b ≤ l.length) :
    ∀ l', heapSortGo k dflt l a b = l' →
      l'.length = l.length ∧ l'.Perm l ∧
      (∀ p, p < a ∨ b ≤ p → sget dflt l' p = sget dflt l p) ∧
      SortedRange k dflt l' a b := by
  intro l' hres
  simp only [heapSortGo] at hres
  obtain ⟨hlenB, hpermB, hpfB, hheapB⟩ :=
    heapBuild_spec k dflt a (b - a) ((b - a - 1) / 2 + 1) l (by omega)
      (fun j c hj hc hcc => absurd hc (by rcases hcc with h | h <;> omega))
      (heapBuild k dflt a (b - a) ((b - a - 1) / 2 + 1) l) rfl
  obtain ⟨hlenP, hpermP, hpfP, hsortP⟩ :=
    heapPop_spec k dflt a (b - a) (b - a)
      (heapBuild k dflt a (b - a) ((b - a - 1) / 2 + 1) l) (le_refl _)
      (by rw [hlenB]; omega) hheapB
      (fun m m2 hm hm2 hm2hi => absurd hm2hi (by omega))
      (fun j m hj hm hmhi => absurd hmhi (by omega)) l' hres
  refine ⟨by rw [hlenP, hlenB], hpermP.trans hpermB, ?_, ?_⟩
  · intro p hp
    have hp2 : p < a ∨ a + (b - a) ≤ p := by omega
    rw [hpfP p hp2]
    exact hpfB p (by omega)
  · intro p q hp hpq hq
    exact hsortP p q hp hpq (by omega)

end HeapSortProof

section InsertionRange

variable {α : Type} (k : α → Nat) (dflt : α)

theorem insSortInner_self : ∀ (a : Nat) (l : List α), insSortInner k dflt a a l = l := by
  intro a l
  cases a with
  | zero => rfl
  | succ n =>
    show (if n + 1 > n + 1 ∧ _ then _ else l) = l
    rw [if_neg (fun hcon => absurd hcon.1 (by omega))]

theorem insSortInner_eq_insFun_pre (P : List α) :
    ∀ S : List α, List.Pairwise (fun p q => k q ≤ k p) S →
      ∀ (x : α) (R : List α),
        insSortInner k dflt P.length (P.length + S.length) (P ++ (S ++ x :: R)) =
          P ++ (insFun k x S ++ R) := by
  intro S
  induction S using List.reverseRecOn with
  | nil =>
    intro _ x R
    simp only [List.length_nil, Nat.add_zero, List.nil_append]
    rw [insSortInner_self]
    simp [insFun]
  | append_singleton S2 s ih =>
    intro hS x R
    have hgx : (P ++ (S2 ++ s :: x :: R)).getD (P.length + S2.length + 1) dflt = x := by
      rw [show P ++ (S2 ++ s :: x :: R) = ((P ++ S2) ++ [s]) ++ x :: R by simp,
        show P.length + S2.length + 1 = ((P ++ S2) ++ [s]).length by simp; omega]
      exact getD_append_length dflt ((P ++ S2) ++ [s]) x R
    have hgs : (P ++ (S2 ++ s :: x :: R)).getD (P.length + S2.length) dflt = s := by
      rw [show P ++ (S2 ++ s :: x :: R) = (P ++ S2) ++ s :: x :: R by simp,
        show P.length + S2.length = (P ++ S2).length by simp]
      exact getD_append_length dflt (P ++ S2) s (x :: R)
    have hlen : P.length + (S2 ++ [s]).length = P.length + S2.length + 1 := by
      simp
      omega
    have hl : P ++ ((S2 ++ [s]) ++ x :: R) = P ++ (S2 ++ s :: x :: R) := by simp
    rw [hlen, hl]
    show (if P.length + S2.length + 1 > P.length ∧
        k (sget dflt (P ++ (S2 ++ s :: x :: R)) (P.length + S2.length + 1)) >
          k (sget dflt (P ++ (S2 ++ s :: x :: R)) (P.length + S2.length)) then
        insSortInner k dflt P.length (P.length + S2.length)
          (swapL dflt (P ++ (S2 ++ s :: x :: R)) (P.length + S2.length + 1)
            (P.length + S2.length))
      else P ++ (S2 ++ s :: x :: R)) = P ++ (insFun k x (S2 ++ [s]) ++ R)
    unfold sget
    by_cases hcmp : k x > k s
    · rw [if_pos ⟨by omega, by rw [hgx, hgs]; exact hcmp⟩]
      have hsw : swapL dflt (P ++ (S2 ++ s :: x :: R)) (P.length + S2.length + 1)
          (P.length + S2.length) = P ++ (S2 ++ x :: s :: R) := by
        rw [show P ++ (S2 ++ s :: x :: R) = (P ++ S2) ++ s :: x :: R by simp,
          show P.length + S2.length = (P ++ S2).length by simp]
        rw [swapL_adjacent dflt (P ++ S2) s x R]
        simp
      rw [hsw]
      have hS2 : List.Pairwise (fun p q => k q ≤ k p) S2 :=
        hS.sublist (List.sublist_append_left S2 [s])
      rw [ih hS2 x (s :: R)]
      rw [insFun_beats_last k x s hcmp S2]
      simp
    · rw [if_neg (by
        intro hcon
        rw [hgx, hgs] at hcon
        exact hcmp hcon.2)]
      have hall : ∀ y ∈ S2 ++ [s], ¬ k x > k y := by
        intro y hy
        rcases List.mem_append.mp hy with hyS | hys
        · have hrel := (List.pairwise_append.mp hS).2.2 y hyS s (List.mem_singleton_self s)
          omega
        · rw [List.mem_singleton.mp hys]
          exact hcmp
      rw [insFun_of_all_ge k x (S2 ++ [s]) hall]
      simp

theorem insSortOuter_eq_pre (P T : List α) :
    ∀ (R S : List α) (fuel : Nat), List.Pairwise (fun p q => k q ≤ k p) S →
      R.length ≤ fuel →
      insSortOuter k dflt P.length (P.length + (S.length + R.length)) fuel
        (P.length + S.length) (P ++ (S ++ (R ++ T))) = P ++ (insSortFun k S R ++ T) := by
  intro R
  induction R with
  | nil =>
    intro S fuel hS hf
    cases fuel with
    | zero => simp [insSortOuter, insSortFun]
    | succ f => simp [insSortOuter, insSortFun]
  | cons x R2 ih =>
    intro S fuel hS hf
    cases fuel with
    | zero => simp at hf
    | succ f =>
      show (if P.length + S.length < P.length + (S.length + (x :: R2).length) then
          insSortOuter k dflt P.length (P.length + (S.length + (x :: R2).length)) f
            (P.length + S.length + 1)
            (insSortInner k dflt P.length (P.length + S.length) (P ++ (S ++ ((x :: R2) ++ T))))
        else P ++ (S ++ ((x :: R2) ++ T))) = P ++ (insSortFun k S (x :: R2) ++ T)
      rw [if_pos (by simp)]
      rw [show (x :: R2) ++ T = x :: (R2 ++ T) from rfl]
      rw [insSortInner_eq_insFun_pre k dflt P S hS x (R2 ++ T)]
      have h1 : S.length + (x :: R2).length = (insFun k x S).length + R2.length := by
        rw [insFun_length]
        simp
        omega
      have h2 : P.length + S.length + 1 = P.length + (insFun k x S).length := by
        rw [insFun_length]
        omega
      rw [h1, h2]
      rw [show P ++ (insFun k x S ++ (R2 ++ T)) = P ++ ((insFun k x S) ++ (R2 ++ T)) from rfl]
      rw [ih (insFun k x S) f (insFun_sorted k x S hS)
        (by simpa using Nat.le_of_succ_le_succ hf)]
      rfl

end InsertionRange

section InsertionRange2

variable {α : Type} (k : α → Nat) (dflt : α)

theorem insFun_perm (x : α) : ∀ S : List α, (insFun k x S).Perm (x :: S) := by
  intro S
  induction S with
  | nil => exact List.Perm.refl _
  | cons y S ih =>
    by_cases hxy : k x > k y
    · simp only [insFun, if_pos hxy]
      exact List.Perm.refl _
    · simp only [insFun, if_neg hxy]
      exact (List.Perm.cons y ih).trans (List.Perm.swap x y S)

theorem insSortFun_perm : ∀ (R S : List α), (insSortFun k S R).Perm (S ++ R) := by
  intro R
  induction R with
  | nil =>
    intro S
    simp [insSortFun]
  | cons x R2 ih =>
    intro S
    have h1 : insSortFun k S (x :: R2) = insSortFun k (insFun k x S) R2 := rfl
    rw [h1]
    refine (ih (insFun k x S)).trans ?_
    refine (((insFun_perm k x S).append_right R2).trans ?_)
    exact List.perm_middle.symm

theorem insSortFun_length (S R : List α) :
    (insSortFun k S R).length = S.length + R.length := by
  have h := (insSortFun_perm k R S).length_eq
  simpa using h

theorem sget_append_left (A B : List α) (p : Nat) (hp : p < A.length) :
    sget dflt (A ++ B) p = sget dflt A p := by
  unfold sget
  rw [List.getD_append A B dflt p hp]

theorem sget_append_right (A B : List α) (p : Nat) (hp : A.length ≤ p) :
    sget dflt (A ++ B) p = sget dflt B (p - A.length) := by
  unfold sget
  rw [List.getD_append_right A B dflt p hp]

theorem insertionSortGo_pre (P T : List α) (y : α) (t : List α) :
    insertionSortGo k dflt (P ++ ((y :: t) ++ T)) P.length (P.length + (y :: t).length) =
      P ++ (insSortFun k [y] t ++ T) := by
  have h := insSortOuter_eq_pre k dflt P T t [y] (P.length + ([y].length + t.length))
    (List.pairwise_singleton _ y) (by simp; omega)
  show insSortOuter k dflt P.length (P.length + (y :: t).length)
      (P.length + (y :: t).length) (P.length + 1) (P ++ ((y :: t) ++ T)) =
    P ++ (insSortFun k [y] t ++ T)
  have h1 : P.length + (y :: t).length = P.length + ([y].length + t.length) := by
    simp
    omega
  have h2 : P.length + 1 = P.length + [y].length := by simp
  have h3 : P ++ ((y :: t) ++ T) = P ++ ([y] ++ (t ++ T)) := by simp
  rw [h1, h2, h3]
  exact h

end InsertionRange2

section InsertionRange3

variable {α : Type} (k : α → Nat) (dflt : α)

theorem insertionSortGo_spec (l : List α) (a b : Nat) (hab : a < b) (hb : b ≤ l.length) :
    ∀ l', insertionSortGo k dflt l a b = l' →
      l'.length = l.length ∧ l'.Perm l ∧
      (∀ p, p < a ∨ b ≤ p → sget dflt l' p = sget dflt l p) ∧
      SortedRange k dflt l' a b := by
  intro l' hres
  obtain ⟨y, t, hyt⟩ : ∃ y tl, (l.drop a).take (b - a) = y :: tl := by
    have hlen : ((l.drop a).take (b - a)).length = b - a := by simp; omega
    cases hM : (l.drop a).take (b - a) with
    | nil => rw [hM] at hlen; simp at hlen; omega
    | cons y tl => exact ⟨y, tl, rfl⟩
  have hdecomp : l = l.take a ++ ((y :: t) ++ l.drop b) := by
    rw [← hyt]
    exact region_decomp l a b (by omega)
  have hPlen : (l.take a).length = a := by simp; omega
  have hMlen : (y :: t).length = b - a := by rw [← hyt]; simp; omega
  have hres2 : insertionSortGo k dflt (l.take a ++ ((y :: t) ++ l.drop b)) (l.take a).length
      ((l.take a).length + (y :: t).length) = l' := by
    rw [hPlen, hMlen, show a + (b - a) = b by omega, ← hdecomp]
    exact hres
  rw [insertionSortGo_pre k dflt (l.take a) (l.drop b) y t] at hres2
  subst hres2
  set X := insSortFun k [y] t with hX
  have hMlen2 : t.length + 1 = b - a := by simpa using hMlen
  have hXlen : X.length = b - a := by
    rw [hX, insSortFun_length]
    simp
    omega
  refine ⟨?_, ?_, ?_, ?_⟩
  · conv_rhs => rw [hdecomp]
    simp only [List.length_append]
    rw [hXlen, hMlen]
  · conv_rhs => rw [hdecomp]
    have hXp : X.Perm (y :: t) := by
      rw [hX]
      simpa using insSortFun_perm k t [y]
    exact List.Perm.append_left _ (hXp.append_right _)
  · intro p hp
    have hlfix : sget dflt l p = sget dflt (l.take a ++ ((y :: t) ++ l.drop b)) p := by
      conv_lhs => rw [hdecomp]
    rw [hlfix]
    rcases hp with hp | hp
    · rw [sget_append_left dflt _ _ p (by rw [hPlen]; omega),
        sget_append_left dflt _ _ p (by rw [hPlen]; omega)]
    · rw [sget_append_right dflt _ _ p (by rw [hPlen]; omega),
        sget_append_right dflt _ _ p (by rw [hPlen]; omega), hPlen,
        sget_append_right dflt X _ _ (by rw [hXlen]; omega),
        sget_append_right dflt (y :: t) _ _ (by rw [hMlen]; omega), hXlen, hMlen]
  · intro p q hp hpq hq
    have hsX : List.Pairwise (fun u v => k v ≤ k u) X := by
      rw [hX]
      exact insSortFun_sorted k t [y] (List.pairwise_singleton _ y)
    have hval : ∀ m, a ≤ m → m < b →
        sget dflt (l.take a ++ (X ++ l.drop b)) m = sget dflt X (m - a) := by
      intro m hm hmb
      rw [sget_append_right dflt _ _ m (by rw [hPlen]; omega), hPlen,
        sget_append_left dflt X _ (m - a) (by rw [hXlen]; omega)]
    rw [hval p hp (by omega), hval q (by omega) hq]
    rcases Nat.eq_or_lt_of_le hpq with he | hlt
    · rw [he]
    · have hq2 : q - a < X.length := by rw [hXlen]; omega
      have hp2 : p - a < X.length := by omega
      have hrel := List.pairwise_iff_getElem.mp hsX (p - a) (q - a) hp2 hq2 (by omega)
      unfold sget
      rw [List.getD_eq_getElem X dflt hp2, List.getD_eq_getElem X dflt hq2]
      exact hrel

end InsertionRange3

section QuickSortProof

variable {α : Type} (k : α → Nat) (dflt : α)

theorem sortedRange_of_frame (l l2 : List α) (a b : Nat)
    (hf : ∀ p, a ≤ p → p < b → sget dflt l2 p = sget dflt l p)
    (hs : SortedRange k dflt l a b) : SortedRange k dflt l2 a b := by
  intro p q hp hpq hq
  rw [hf p hp (by omega), hf q (by omega) hq]
  exact hs p q hp hpq hq

theorem quickSort_small_spec (l : List α) (a b : Nat) (hab : a ≤ b) (hb : b ≤ l.length) :
    ∀ l', (if b - a > 1 then insertionSortGo k dflt l a b else l) = l' →
      l'.length = l.length ∧ l'.Perm l ∧
      (∀ p, p < a ∨ b ≤ p → sget dflt l' p = sget dflt l p) ∧
      SortedRange k dflt l' a b := by
  intro l' hres
  by_cases h1 : b - a > 1
  · rw [if_pos h1] at hres
    exact insertionSortGo_spec k dflt l a b (by omega) hb l' hres
  · rw [if_neg h1] at hres
    subst hres
    refine ⟨rfl, List.Perm.refl l, fun p _ => rfl, ?_⟩
    intro p q hp hpq hq
    have hpq2 : p = q := by omega
    rw [hpq2]

theorem quickSortGo_spec :
    ∀ (md : Nat) (l : List α) (a b : Nat), a ≤ b → b ≤ l.length →
      ∀ l', quickSortGo k dflt md l a b = l' →
        l'.length = l.length ∧ l'.Perm l ∧
        (∀ p, p < a ∨ b ≤ p → sget dflt l' p = sget dflt l p) ∧
        SortedRange k dflt l' a b := by
  intro md
  induction md with
  | zero =>
    intro l a b hab hb l' hres
    rw [quickSortGo.eq_def] at hres
    dsimp only at hres
    by_cases h7 : b - a > 7
    · rw [if_pos h7] at hres
      exact heapSortGo_spec k dflt l a b hab hb l' hres
    · rw [if_neg h7] at hres
      exact quickSort_small_spec k dflt l a b hab hb l' hres
  | succ md ih =>
    intro l a b hab hb l' hres
    rw [quickSortGo.eq_def] at hres
    dsimp only at hres
    by_cases h7 : b - a > 7
    · rw [if_pos h7] at hres
      rcases hdp : doPivot k dflt l a b with ⟨l1, mlo, mhi⟩
      rw [hdp] at hres
      dsimp only at hres
      obtain ⟨hlen1, hperm1, hframe1, hmlo1, hmlo2, hmhi1, hmhi2, hmm, pv, hG, hE, hL⟩ :=
        doPivot_spec k dflt l a b (by omega) hb l1 mlo mhi hdp
      by_cases hside : mlo - a < b - mhi
      · rw [if_pos hside] at hres
        obtain ⟨hlen2, hperm2, hframe2, hsort2⟩ :=
          ih l1 a mlo (by omega) (by omega) (quickSortGo k dflt md l1 a mlo) rfl
        set l2 := quickSortGo k dflt md l1 a mlo with hl2
        obtain ⟨hlen3, hperm3, hframe3, hsort3⟩ := ih l2 mhi b (by omega) (by omega) l' hres
        have hG2 : ∀ p, a ≤ p → p < mlo → pv < k (sget dflt l2 p) :=
          region_value_transfer k dflt (fun v => pv < v) l1 l2 a mlo (by omega) (by omega)
            hlen2 hperm2 hframe2 hG
        have hE2 : ∀ p, mlo ≤ p → p < mhi → k (sget dflt l2 p) = pv := by
          intro p h1 h2
          rw [hframe2 p (Or.inr h1)]
          exact hE p h1 h2
        have hL2 : ∀ p, mhi ≤ p → p < b → k (sget dflt l2 p) < pv := by
          intro p h1 h2
          rw [hframe2 p (Or.inr (by omega))]
          exact hL p h1 h2
        have hG3 : ∀ p, a ≤ p → p < mlo → pv < k (sget dflt l' p) := by
          intro p h1 h2
          rw [hframe3 p (Or.inl (by omega))]
          exact hG2 p h1 h2
        have hE3 : ∀ p, mlo ≤ p → p < mhi → k (sget dflt l' p) = pv := by
          intro p h1 h2
          rw [hframe3 p (Or.inl h2)]
          exact hE2 p h1 h2
        have hL3 : ∀ p, mhi ≤ p → p < b → k (sget dflt l' p) < pv :=
          region_value_transfer k dflt (fun v => v < pv) l2 l' mhi b (by omega) (by omega)
            hlen3 hperm3 hframe3 hL2
        have hS1 : SortedRange k dflt l' a mlo :=
          sortedRange_of_frame k dflt l2 l' a mlo
            (fun p h1 h2 => hframe3 p (Or.inl (by omega))) hsort2
        refine ⟨hlen3.trans (hlen2.trans hlen1), hperm3.trans (hperm2.trans hperm1), ?_, ?_⟩
        · intro p hp
          rcases hp with hp | hp
          · rw [hframe3 p (Or.inl (by omega)), hframe2 p (Or.inl hp), hframe1 p (Or.inl hp)]
          · rw [hframe3 p (Or.inr hp), hframe2 p (Or.inr (by omega)), hframe1 p (Or.inr hp)]
        · intro p q hp hpq hq
          by_cases hq1 : q < mlo
          · exact hS1 p q hp hpq hq1
          · by_cases hq2 : q < mhi
            · rw [hE3 q (by omega) hq2]
              by_cases hp1 : p < mlo
              · exact le_of_lt (hG3 p hp hp1)
              · rw [hE3 p (by omega) (by omega)]
            · by_cases hp1 : p < mlo
              · exact le_of_lt (lt_trans (hL3 q (by omega) hq) (hG3 p hp hp1))
              · by_cases hp2 : p < mhi
                · rw [hE3 p (by omega) hp2]
                  exact le_of_lt (hL3 q (by omega) hq)
                · exact hsort3 p q (by omega) hpq hq
      · rw [if_neg hside] at hres
        obtain ⟨hlen2, hperm2, hframe2, hsort2⟩ :=
          ih l1 mhi b (by omega) (by omega) (quickSortGo k dflt md l1 mhi b) rfl
        set l2 := quickSortGo k dflt md l1 mhi b with hl2
        obtain ⟨hlen3, hperm3, hframe3, hsort3⟩ := ih l2 a mlo (by omega) (by omega) l' hres
        have hL2 : ∀ p, mhi ≤ p → p < b → k (sget dflt l2 p) < pv :=
          region_value_transfer k dflt (fun v => v < pv) l1 l2 mhi b (by omega) (by omega)
            hlen2 hperm2 hframe2 hL
        have hG2 : ∀ p, a ≤ p → p < mlo → pv < k (sget dflt l2 p) := by
          intro p h1 h2
          rw [hframe2 p (Or.inl (by omega))]
          exact hG p h1 h2
        have hE2 : ∀ p, mlo ≤ p → p < mhi → k (sget dflt l2 p) = pv := by
          intro p h1 h2
          rw [hframe2 p (Or.inl h2)]
          exact hE p h1 h2
        have hG3 : ∀ p, a ≤ p → p < mlo → pv < k (sget dflt l' p) :=
          region_value_transfer k dflt (fun v => pv < v) l2 l' a mlo (by omega) (by omega)
            hlen3 hperm3 hframe3 hG2
        have hE3 : ∀ p, mlo ≤ p → p < mhi → k (sget dflt l' p) = pv := by
          intro p h1 h2
          rw [hframe3 p (Or.inr h1)]
          exact hE2 p h1 h2
        have hL3 : ∀ p, mhi ≤ p → p < b → k (sget dflt l' p) < pv := by
          intro p h1 h2
          rw [hframe3 p (Or.inr (by omega))]
          exact hL2 p h1 h2
        have hS2 : SortedRange k dflt l' mhi b :=
          sortedRange_of_frame k dflt l2 l' mhi b
            (fun p h1 h2 => hframe3 p (Or.inr (by omega))) hsort2
        refine ⟨hlen3.trans (hlen2.trans hlen1), hperm3.trans (hperm2.trans hperm1), ?_, ?_⟩
        · intro p hp
          rcases hp with hp | hp
          · rw [hframe3 p (Or.inl hp), hframe2 p (Or.inl (by omega)), hframe1 p (Or.inl hp)]
          · rw [hframe3 p (Or.inr (by omega)), hframe2 p (Or.inr hp), hframe1 p (Or.inr hp)]
        · intro p q hp hpq hq
          by_cases hq1 : q < mlo
          · exact hsort3 p q hp hpq hq1
          · by_cases hq2 : q < mhi
            · rw [hE3 q (by omega) hq2]
              by_cases hp1 : p < mlo
              · exact le_of_lt (hG3 p hp hp1)
              · rw [hE3 p (by omega) (by omega)]
            · by_cases hp1 : p < mlo
              · exact le_of_lt (lt_trans (hL3 q (by omega) hq) (hG3 p hp hp1))
              · by_cases hp2 : p < mhi
                · rw [hE3 p (by omega) hp2]
                  exact le_of_lt (hL3 q (by omega) hq)
                · exact hS2 p q (by omega) hpq hq
    · rw [if_neg h7] at hres
      exact quickSort_small_spec k dflt l a b hab hb l' hres

end QuickSortProof

section SortGoSorted

variable {α : Type} (k : α → Nat) (dflt : α)

/-- Go `sort.Sort` (as embedded: introsort over quicksort, heapsort and
insertion sort) sorts every list into descending key order and permutes it. -/
theorem sortGo_sorted (l : List α) :
    List.Pairwise (fun p q => k q ≤ k p) (sortGo k dflt l) ∧ (sortGo k dflt l).Perm l := by
  obtain ⟨hlen, hperm, hframe, hsort⟩ :=
    quickSortGo_spec k dflt (2 * maxDepthAux l.length l.length) l 0 l.length
      (Nat.zero_le _) (le_refl _) (sortGo k dflt l) rfl
  constructor
  · rw [List.pairwise_iff_getElem]
    intro i j hi hj hij
    have h2 := hsort i j (Nat.zero_le _) (le_of_lt hij) (by omega)
    have hsg : ∀ m (hm : m < (sortGo k dflt l).length),
        sget dflt (sortGo k dflt l) m = (sortGo k dflt l)[m] := by
      intro m hm
      unfold sget
      rw [List.getD_eq_getElem _ dflt hm]
    rw [hsg i hi, hsg j hj] at h2
    exact h2
  · exact hperm

end SortGoSorted

/-- **C2** (amended).  For every master document, the descriptor list
produced by the master branch of `GetPlaylistsFromURL` is a permutation of
the per-variant descriptors sorted in descending order of bandwidth;
equal-bandwidth variants keep their original relative order whenever the
document has at most 7 variants (`sort.Sort`'s insertion-sort path), but for
8 or more variants the unstable stdlib quicksort may reorder them, as the
counterexample shows. -/
theorem resolveMaster_sorted_stable_upTo7 (u : URL) (response : String)
    (pl : MasterPlaylist) :
    List.Pairwise (fun p q => q.bandwidth ≤ p.bandwidth)
      (GetPlaylistsFromURL_master u response pl) ∧
    (GetPlaylistsFromURL_master u response pl).Perm
      (pl.variants.map (mkVariantStream u response pl)) ∧
    (pl.variants.length ≤ 7 →
      ∀ v : Nat,
        (GetPlaylistsFromURL_master u response pl).filter (fun d => d.bandwidth == v) =
          (pl.variants.map (mkVariantStream u response pl)).filter
            (fun d => d.bandwidth == v)) := by
  obtain ⟨hsorted, hperm⟩ := sortGo_sorted StreamPlaylist.bandwidth dfltStream
    (pl.variants.map (mkVariantStream u response pl))
  refine ⟨hsorted, hperm, ?_⟩
  intro h v
  have hlen : (pl.variants.map (mkVariantStream u response pl)).length ≤ 7 := by
    rw [List.length_map]
    exact h
  exact (sortGo_small StreamPlaylist.bandwidth dfltStream _ hlen).2 v

/-- **C2** witness: a four-variant master document (two variants tied at
bandwidth 5) on which the amended theorem's sortedness, permutation and
small-document stability parts are all exercised concretely. -/
theorem resolveMaster_sorted_stable_upTo7_witness :
    (c2SmallMaster.variants.length ≤ 7) ∧
    (GetPlaylistsFromURL_master cexURL "raw" c2SmallMaster).map
        (fun d => (d.bandwidth, d.url.path)) =
      [(9, "/x/b"), (5, "/x/a"), (5, "/x/c"), (1, "/x/d")] ∧
    List.Pairwise (fun p q => q.bandwidth ≤ p.bandwidth)
      (GetPlaylistsFromURL_master cexURL "raw" c2SmallMaster) ∧
    (GetPlaylistsFromURL_master cexURL "raw" c2SmallMaster).Perm
      (c2SmallMaster.variants.map (mkVariantStream cexURL "raw" c2SmallMaster)) ∧
    (GetPlaylistsFromURL_master cexURL "raw" c2SmallMaster).filter
        (fun d => d.bandwidth == 5) =
      (c2SmallMaster.variants.map (mkVariantStream cexURL "raw" c2SmallMaster)).filter
        (fun d => d.bandwidth == 5) := by
  have h := resolveMaster_sorted_stable_upTo7 cexURL "raw" c2SmallMaster
  exact ⟨by decide, by decide, h.1, h.2.1, h.2.2 (by decide) 5⟩
